import Mathlib

/-!
# A verification model of the matdb storage engine

This file gives a shallow embedding, in Lean 4, of the core of the `matdb`
multidimensional store (block storage, block iteration, the k-way scan
merge, transactions, the database directory scan and the block byte
codec), together with theorems settling the specification claims about it.

Modelling conventions:
* `Datum` (Rust `usize` on a 64-bit target) is modelled as `Nat`; where an
  integer width matters (the byte codec), bounds `< 2 ^ 64` etc. appear as
  explicit hypotheses.
* Rust `Vec<T>` is `List T`; in-place mutation becomes functional update.
* Fallible reads return `Option`.  A handful of places where the Rust code
  would panic (out-of-range indexing reachable only from states that
  violate the data-structure invariants) are modelled as benign defaults
  and are marked by comments at the definition.
* `HashMap`/`HashSet` iteration order is arbitrary in Rust; the model uses
  lists and notes where order is irrelevant.
-/

namespace Matdb

/-- `Datum`: Rust `usize` (64-bit), modelled as `Nat`. -/
abbrev Datum := Nat

/-- `TransactionId`, modelled as `Nat` (its concrete integer width is not
under `src/`; only hexadecimal filename bounds depend on it). -/
abbrev TransactionId := Nat

/-- `SegmentNum`, modelled as `Nat`. -/
abbrev SegmentNum := Nat

/-- `SegmentId = (TransactionId, SegmentNum)`. -/
abbrev SegmentId := TransactionId × SegmentNum

/-- `BlockId = (TransactionId, SegmentNum, BlockNum)`. -/
abbrev BlockId := TransactionId × SegmentNum × Nat

/-- Modelled from the spec: `compare_points` lives in the crate root, which
is not among the source files (`src/lib.rs` is from an older revision that
predates it).  The spec describes it as the "standard tuple compare over
the first D elements": lexicographic comparison of the first `d` elements,
a shorter list comparing less than a proper extension. -/
def compare_points : Nat → List Datum → List Datum → Ordering
  | 0, _, _ => .eq
  | _ + 1, [], [] => .eq
  | _ + 1, [], _ :: _ => .lt
  | _ + 1, _ :: _, [] => .gt
  | d + 1, a :: as, b :: bs =>
    match compare a b with
    | .eq => compare_points d as bs
    | o => o

/-- Full lexicographic comparison of `Vec<usize>` values, as used by the
standard library `Ord` instance for `Vec` (e.g. by `Iterator::min` in
`Scan::add_segment`). -/
def lexCompare : List Datum → List Datum → Ordering
  | [], [] => .eq
  | [], _ :: _ => .lt
  | _ :: _, [] => .gt
  | a :: as, b :: bs =>
    match compare a b with
    | .eq => lexCompare as bs
    | o => o

/-! ## Block (`src/block.rs`) -/
/-- `Block`: per-axis ordered dimension values plus the flat array of
optional value slots. -/
structure Block where
  dimension_values : List (List Datum)
  values : List (Option Datum)
deriving Repr, DecidableEq

namespace Block

/-- `Block::new(num_dimensions)`. -/
def new (num_dimensions : Nat) : Block :=
  { dimension_values := List.replicate num_dimensions []
    values := [] }

/-- `Block::get_index`: the linear index the code computes for a tuple of
per-axis indexes.  Note the stride used for axis `i` is the length of axis
`i + 1` alone (`scale = dimension_values[i+1].len()`), not the product of
all later axis lengths. -/
def get_index (b : Block) (dim_indexes : List Nat) : Nat :=
  let num_dims := b.dimension_values.length
  dim_indexes.enum.foldl
    (fun idx p =>
      if p.1 < num_dims - 1 then
        idx + (b.dimension_values.getD (p.1 + 1) []).length * p.2
      else idx + p.2)
    0

/-- `Vec::resize(new_size, None)`: truncate or pad with `none`. -/
def resizeValues (v : List (Option Datum)) (n : Nat) : List (Option Datum) :=
  v.take n ++ List.replicate (n - v.length) none

/-- `copy_within(from..from+num, to)` on the values vector (functional
form): positions `to ≤ i < to + num` receive the element at
`from + (i - to)`; everything else is unchanged. -/
def copyWithin (v : List (Option Datum)) (src dst num : Nat) : List (Option Datum) :=
  (List.range v.length).map
    (fun i =>
      if dst ≤ i ∧ i < dst + num then v.getD (src + (i - dst)) none
      else v.getD i none)

/-- `Block::copy_elements`: truncates the copy length at the end of the
vector, then copies.  (When `to_idx > len` the Rust subtraction
`len - to_idx` would overflow and panic; `Nat` subtraction makes it 0 here.
That case is unreachable from `insert_slice`.) -/
def copy_elements (v : List (Option Datum)) (from_idx to_idx num : Nat) :
    List (Option Datum) :=
  let num := if to_idx + num > v.length then v.length - to_idx else num
  copyWithin v from_idx to_idx num

/-- `Block::clear_elements`: set slots in `[from_idx, to_idx)` to absent. -/
def clear_elements (v : List (Option Datum)) (from_idx to_idx : Nat) :
    List (Option Datum) :=
  (List.range v.length).map
    (fun i => if from_idx ≤ i ∧ i < to_idx then none else v.getD i none)

/-- `SliceInsertionParams`. -/
structure SliceInsertionParams where
  new_size : Nat
  moves : Nat
  len : Nat
  step : Nat
  offset : Nat
deriving Repr, DecidableEq

/-- `Block::get_slice_insertion_params`. -/
def get_slice_insertion_params (b : Block) (dim_no index : Nat) :
    SliceInsertionParams :=
  let sizes := b.dimension_values.map List.length
  let num_moves := (sizes.take dim_no).prod
  let move_step := (sizes.drop (dim_no + 1)).prod
  let move_size := sizes.getD dim_no 0 * move_step
  let new_size := num_moves * (sizes.getD dim_no 0 + 1) * move_step
  let current_size := num_moves * move_size
  let move_offset := move_step * index
  let num_moves :=
    if move_size = 0 ∨ move_offset ≥ current_size then 0 else num_moves
  { new_size := new_size
    moves := num_moves
    len := move_size
    step := move_step
    offset := move_offset }

/-- The values-vector transformation of `Block::insert_slice`: grow to
`new_size`, then shift the regions after the insertion point, from the
high end down (`for i in (0..moves).rev()`), clearing each vacated
window. -/
def insertSliceValues (params : SliceInsertionParams)
    (v : List (Option Datum)) : List (Option Datum) :=
  (List.range params.moves).reverse.foldl
    (fun v i =>
      clear_elements
        (copy_elements v (i * params.len + params.offset)
          (i * params.len + params.offset + (i + 1) * params.step) params.len)
        (i * params.len + params.offset)
        (i * params.len + params.offset + (i + 1) * params.step))
    (resizeValues v params.new_size)

/-- `Block::insert_slice`. -/
def insert_slice (b : Block) (dim_no idx : Nat) : Block :=
  { b with
      values :=
        insertSliceValues (b.get_slice_insertion_params dim_no idx) b.values }

/-- The position `binary_search(&value)` resolves on an axis: on a sorted
axis (the maintained invariant) it is the number of elements smaller than
`value`, both for `Ok` (value present) and `Err` (insertion point). -/
def searchIdx (dv : List Datum) (value : Datum) : Nat :=
  (dv.takeWhile (· < value)).length

/-- `Block::add_dimension_value`: a `binary_search` hit returns the
position; a miss runs `insert_slice` and then inserts the value into the
axis at the resolved position. -/
def add_dimension_value (b : Block) (dim_no : Nat) (value : Datum) :
    Block × Nat :=
  if value ∈ b.dimension_values.getD dim_no [] then
    (b, searchIdx (b.dimension_values.getD dim_no []) value)
  else
    ({ b.insert_slice dim_no
          (searchIdx (b.dimension_values.getD dim_no []) value) with
        dimension_values :=
          b.dimension_values.set dim_no
            ((b.dimension_values.getD dim_no []).insertIdx
              (searchIdx (b.dimension_values.getD dim_no []) value) value) },
      searchIdx (b.dimension_values.getD dim_no []) value)

/-- The first loop of `Block::add_row`: resolve or insert every dimension
value, accumulating the per-axis indexes. -/
def addRowDims (b : Block) (vals : List Datum) : Block × List Nat :=
  (List.range b.dimension_values.length).foldl
    (fun (p : Block × List Nat) dim_no =>
      let q := p.1.add_dimension_value dim_no (vals.getD dim_no 0)
      (q.1, p.2 ++ [q.2]))
    (b, [])

/-- `Block::add_row`: resolve/insert every dimension value, then write each
value column of the row at the single computed linear index (so the last
value column wins). -/
def add_row (b : Block) (vals : List Datum) : Block :=
  (List.range' b.dimension_values.length
      (vals.length - b.dimension_values.length)).foldl
    (fun (bb : Block) value_no =>
      { bb with
          values :=
            bb.values.set (bb.get_index (addRowDims b vals).2)
              (some (vals.getD value_no 0)) })
    (addRowDims b vals).1

/-- `Block::get_start_point`: the tuple of first dimension values, absent
if any axis is empty. -/
def get_start_point (b : Block) : Option (List Datum) :=
  if b.dimension_values.any List.isEmpty then none
  else some (b.dimension_values.map (·.headD 0))

end Block

/-! ## BlockIter (`src/block.rs`) -/
/-- Iterator state over a block: the odometer of per-axis indexes and the
running linear value index. -/
structure BlockIter where
  block : Block
  indexes : List Nat
  value_index : Nat
deriving Repr, DecidableEq

/-- `Block::iter`. -/
def Block.iter (b : Block) : BlockIter :=
  { block := b
    indexes := List.replicate b.dimension_values.length 0
    value_index := 0 }

/-- The odometer loop of `BlockIter::increment_indexes`, by decreasing
position: increment position `p`; on overflow reset it to 0 and move left,
except that position 0 is left at its overflowed value. -/
def incrAux (sizes : List Nat) : List Nat → Nat → List Nat
  | idx, 0 =>
    idx.set 0 (idx.getD 0 0 + 1)
  | idx, q + 1 =>
    let idx' := idx.set (q + 1) (idx.getD (q + 1) 0 + 1)
    if idx'.getD (q + 1) 0 ≥ sizes.getD (q + 1) 0 then
      incrAux sizes (idx'.set (q + 1) 0) q
    else idx'

/-- `BlockIter::increment_indexes`: bump the value index and the odometer
(starting from the last position). -/
def BlockIter.increment_indexes (it : BlockIter) : BlockIter :=
  { it with
      value_index := it.value_index + 1
      indexes :=
        incrAux (it.block.dimension_values.map List.length) it.indexes
          (it.indexes.length - 1) }

/-- The row assembled by `BlockIter::next` before returning: the dimension
values selected by the current indexes, then the value. -/
def BlockIter.currentCoords (it : BlockIter) : List Datum :=
  List.zipWith (fun dv i => dv.getD i 0) it.block.dimension_values it.indexes

/-- The loop body of `BlockIter::next`, with fuel for the skip loop.  One
unit of fuel is spent per skipped absent slot; `values.length + 1` units
always suffice, so the fuel-exhaustion branch is never taken by
`BlockIter.next` below.  A `value_index` outside the values vector would
panic in Rust (`self.block.values[self.value_index]`); it is modelled as
end-of-iteration and is unreachable for iterators over blocks satisfying
the density invariant. -/
def blockIterNextAux : Nat → BlockIter → Option (List Datum × BlockIter)
  | 0, _ => none
  | fuel + 1, it =>
    if it.indexes.getD 0 0 ≥ (it.block.dimension_values.getD 0 []).length then
      none
    else
      match it.block.values.get? it.value_index with
      | none => none
      | some none => blockIterNextAux fuel it.increment_indexes
      | some (some v) =>
        some (it.currentCoords ++ [v], it.increment_indexes)

/-- `BlockIter::next`. -/
def BlockIter.next (it : BlockIter) : Option (List Datum × BlockIter) :=
  blockIterNextAux (it.block.values.length + 1) it

/-- Collect at most `n` rows from a block iterator. -/
def blockIterRun : Nat → BlockIter → List (List Datum)
  | 0, _ => []
  | n + 1, it =>
    match it.next with
    | none => []
    | some (row, it') => row :: blockIterRun n it'

/-- All rows yielded by iterating a block (`values.length + 1` steps always
exhaust the iterator). -/
def Block.rows (b : Block) : List (List Datum) :=
  blockIterRun (b.values.length + 1) b.iter

/-! ## Segment (in-memory view used by the scan)
`src/scan.rs` reads `segment.cached_blocks.values()` and `rc.id`;
`src/segment.rs` is from a revision whose `Segment` carries `block_info`
instead of `cached_blocks`.  The in-memory segment is modelled with the
fields the embedded operations use: its id, its file path, and its blocks
(the `HashMap` of cached blocks becomes a list; the scan only iterates it
and takes a minimum, and the minimum is order-independent). -/
structure Segment where
  id : SegmentId
  path : String
  cached_blocks : List Block

/-! ## Scan (`src/scan.rs`) -/
/-- `QueryRow`: the transaction id a row is attributed to, plus the row. -/
structure QueryRow where
  txn_id : TransactionId
  values : List Datum
deriving Repr, DecidableEq

/-- `scan::Type`: the kinds of queued scan sources. -/
inductive QType where
  | segmentId (sid : SegmentId)
  | segment (seg : Segment)
  | blockId (bid : BlockId)
  | block (b : Block)
  | segmentBlock (seg : Segment) (b : Block)

/-- `QueuedItem`. -/
structure QueuedItem where
  start_point : List Datum
  ty : QType

/-- `LiveItem` (the `pin_rc` keep-alive handle has no observable effect and
is dropped from the model). -/
structure LiveItem where
  iter : BlockIter
  current : Option (List Datum)
  txn_id : TransactionId

/-- `Scan`. -/
structure Scan where
  source : SegmentId → Option Segment
  num_dims : Nat
  this_txn_id : TransactionId
  queue : List QueuedItem
  live : List LiveItem

/-- `BinaryHeap` of `QueuedItem`s, modelled as a list: `pop`/`peek` return
a greatest element under `QueuedItem::cmp`, i.e. one with minimal
`start_point` (the `Ord` impl reverses `compare_points` over
`self.start_point.len()` elements).  Among equal keys Rust's heap order is
arbitrary; the model returns the first minimal element. -/
def popMin : List QueuedItem → Option (QueuedItem × List QueuedItem)
  | [] => none
  | x :: xs =>
    match popMin xs with
    | none => some (x, [])
    | some (m, rest) =>
      if (compare_points x.start_point.length x.start_point m.start_point).isGT
      then some (m, x :: rest)
      else some (x, xs)

namespace Scan

/-- `Scan::new`. -/
def new (source : SegmentId → Option Segment) (num_dims : Nat)
    (txn_id : TransactionId) : Scan :=
  { source := source
    num_dims := num_dims
    this_txn_id := txn_id
    queue := []
    live := [] }

/-- `Scan::add_segment_id`: queued under the placeholder start point
`[0, 0]` (the code carries a TODO "should know the segment coords"). -/
def add_segment_id (s : Scan) (seg_id : SegmentId) : Scan :=
  let start_point : List Datum := [0, 0]
  { s with queue := ⟨start_point, .segmentId seg_id⟩ :: s.queue }

/-- `Iterator::min` over `Vec<Datum>` values (`Vec`'s lexicographic `Ord`);
the first minimum is kept on ties. -/
def listMin : List (List Datum) → Option (List Datum) :=
  List.foldl
    (fun acc p =>
      match acc with
      | none => some p
      | some m => if lexCompare p m = .lt then some p else some m)
    none

/-- The start point `Scan::add_segment` computes: the minimum over the
segment's blocks' start points. -/
def segmentStartPoint (segment : Segment) : Option (List Datum) :=
  listMin (segment.cached_blocks.filterMap Block.get_start_point)

/-- `Scan::add_segment`. -/
def add_segment (s : Scan) (segment : Segment) : Scan :=
  match segmentStartPoint segment with
  | none => s
  | some start_point =>
    { s with queue := ⟨start_point, .segment segment⟩ :: s.queue }

/-- `Scan::add_block`. -/
def add_block (s : Scan) (b : Block) : Scan :=
  match b.get_start_point with
  | none => s
  | some start_point =>
    { s with queue := ⟨start_point, .block b⟩ :: s.queue }

/-- `Scan::add_segment_block`. -/
def add_segment_block (s : Scan) (seg : Segment) (b : Block) : Scan :=
  match b.get_start_point with
  | none => s
  | some start_point =>
    { s with queue := ⟨start_point, .segmentBlock seg b⟩ :: s.queue }

/-- Processing of one dequeued item inside `Scan::check_queue`:
sources fan out into finer-grained queued sources, and blocks whose
iterator yields a first row join the live set (attributed to
`this_txn_id` for plain blocks and to the segment's transaction id for
segment blocks).  The `BlockId` arm is `todo!()` in the code (a panic) and
nothing in the sources constructs it; it is modelled as a no-op. -/
def processItem (s : Scan) (item : QueuedItem) : Scan :=
  match item.ty with
  | .segmentId sid =>
    match s.source sid with
    | some seg => s.add_segment seg
    | none => s
  | .segment seg =>
    seg.cached_blocks.foldl (fun s b => s.add_segment_block seg b) s
  | .blockId _ => s
  | .block b =>
    match (Block.iter b).next with
    | none => s
    | some (row, it') =>
      { s with live := s.live ++ [⟨it', some row, s.this_txn_id⟩] }
  | .segmentBlock seg b =>
    match (Block.iter b).next with
    | none => s
    | some (row, it') =>
      { s with live := s.live ++ [⟨it', some row, seg.id.1⟩] }

/-- Termination measure for `check_queue`: each dequeue strictly reduces
the total weight of the queue (a segment id weighs more than the segment
it materialises into, which weighs more than its blocks). -/
def itemWeight (source : SegmentId → Option Segment) : QueuedItem → Nat
  | ⟨_, .segmentId sid⟩ =>
    2 + (match source sid with
      | some seg => 1 + 2 * seg.cached_blocks.length
      | none => 0)
  | ⟨_, .segment seg⟩ => 1 + 2 * seg.cached_blocks.length
  | ⟨_, .blockId _⟩ => 1
  | ⟨_, .block _⟩ => 1
  | ⟨_, .segmentBlock _ _⟩ => 1

/-- Total weight of a queue. -/
def queueWeight (source : SegmentId → Option Segment)
    (q : List QueuedItem) : Nat :=
  (q.map (itemWeight source)).sum

/-- The loop of `Scan::check_queue`, with explicit fuel: while the least
queued start point has been reached by `current`, dequeue and process.
The queue weight strictly decreases at every iteration
(`processItem_weight`), so `queueWeight` units of fuel always suffice and
the fuel-exhaustion branch is never taken by `check_queue` below
(`checkQueueAux_fuel_free`). -/
def checkQueueAux : Nat → Scan → List Datum → Scan
  | 0, s, _ => s
  | fuel + 1, s, current =>
    match popMin s.queue with
    | none => s
    | some (item, rest) =>
      if (compare_points s.num_dims item.start_point current).isGT then s
      else checkQueueAux fuel (processItem { s with queue := rest } item) current

/-- `Scan::check_queue`. -/
def check_queue (s : Scan) (current : List Datum) : Scan :=
  checkQueueAux (queueWeight s.source s.queue) s current

/-- `<Scan as Iterator>::next`. -/
def next (s : Scan) : Option QueryRow × Scan :=
  /- Find the lowest current row among live items, seeded with the top of
     the queue; records whether the queue top is still the frontier. -/
  let cf : Option (List Datum) × Bool :=
    s.live.foldl
      (fun cf item =>
        match item.current with
        | none => cf
        | some c =>
          match cf.1 with
          | none => (some c, false)
          | some cur =>
            if (compare_points s.num_dims c cur).isLT then (some c, false)
            else cf)
      ((popMin s.queue).map (fun p => p.1.start_point), true)
  match cf.1 with
  | none => (none, s)
  | some current_point =>
    let s := if cf.2 then s.check_queue current_point else s
    /- Check everything that is live for the best row to return; live
       iterators positioned at the frontier advance whether or not they
       win. -/
    let bl : List LiveItem × Nat × Option (List Datum) :=
      s.live.foldl
        (fun st item =>
          match item.current with
          | none => (st.1 ++ [item], st.2)
          | some c =>
            if compare_points s.num_dims c current_point = .eq then
              let item' :=
                match item.iter.next with
                | none => { item with current := none }
                | some (row, it') => { item with current := some row, iter := it' }
              if item.txn_id > st.2.1 then (st.1 ++ [item'], item.txn_id, some c)
              else (st.1 ++ [item'], st.2)
            else (st.1 ++ [item], st.2))
        ([], 0, none)
    let live := bl.1.filter (fun l => l.current.isSome)
    (bl.2.2.map (fun row => { txn_id := bl.2.1, values := row }),
      { s with live := live })

end Scan

/-- Call `Scan::next` up to `n` times, collecting every row returned
(continuing past `None` results). -/
def runScan : Nat → Scan → List QueryRow × Scan
  | 0, s => ([], s)
  | n + 1, s =>
    let p := s.next
    let q := runScan n p.2
    (match p.1 with
     | some r => r :: q.1
     | none => q.1, q.2)

/-- The rows a `Scan` yields as a Rust `Iterator` within `n` calls: collect
until the first `None` (which ends iteration). -/
def scanToList : Nat → Scan → List QueryRow
  | 0, _ => []
  | n + 1, s =>
    match s.next with
    | (none, _) => []
    | (some r, s') => r :: scanToList n s'

/-! ## Schema (`src/schema.rs`) -/
/-- `Dimension`. -/
structure Dimension where
  name : String
  chunk_size : Nat

/-- `Value`. -/
structure Value where
  name : String

/-- `Schema`. -/
structure Schema where
  dimensions : List Dimension
  values : List Value

/-- `BlockKey`: the per-dimension quotients by chunk size.  (Its Rust
`PartialEq`/`Hash` work over the tuple of key values; keys always have
exactly `D` entries, so list equality models them.) -/
abbrev BlockKey := List Datum

/-- `Schema::get_chunk_key`.  A zero `chunk_size` would make the Rust
division panic; the spec requires positive chunk sizes (Lean's `/ 0 = 0`
is never exercised in the states considered). -/
def Schema.get_chunk_key (schema : Schema) (values : List Datum) : BlockKey :=
  schema.dimensions.enum.map (fun p => values.getD p.1 0 / p.2.chunk_size)

/-! ## Storage helpers (`src/storage.rs`) -/
/-- Lowercase hexadecimal digit. -/
def hexDigitChar (n : Nat) : Char :=
  if n < 10 then Char.ofNat ('0'.toNat + n)
  else Char.ofNat ('a'.toNat + (n - 10))

/-- Hexadecimal digits of `n`, least significant first. -/
def hexDigitsLE : Nat → List Char
  | 0 => []
  | n + 1 => hexDigitChar ((n + 1) % 16) :: hexDigitsLE ((n + 1) / 16)
decreasing_by exact Nat.div_lt_self (Nat.succ_pos n) (by omega)

/-- Rust `format!("{:08x}", n)`: lowercase hex, zero-padded to (at least)
eight characters. -/
def toHexPad8 (n : Nat) : String :=
  let ds := if n = 0 then ['0'] else (hexDigitsLE n).reverse
  String.mk (List.replicate (8 - ds.length) '0' ++ ds)

/-- `get_segment_path`: `db / "{txn:08x}.{seg:08x}[.tmp]"` (`PathBuf::join`
inserts the `/` separator). -/
def get_segment_path (database_path : String) (seg_id : SegmentId)
    (visible : Bool) : String :=
  database_path ++ "/" ++ toHexPad8 seg_id.1 ++ "." ++ toHexPad8 seg_id.2 ++
    (if visible then "" else ".tmp")

/-- Value of one hexadecimal digit character, upper or lower case. -/
def hexDigitVal? (c : Char) : Option Nat :=
  if '0' ≤ c ∧ c ≤ '9' then some (c.toNat - '0'.toNat)
  else if 'a' ≤ c ∧ c ≤ 'f' then some (c.toNat - 'a'.toNat + 10)
  else if 'A' ≤ c ∧ c ≤ 'F' then some (c.toNat - 'A'.toNat + 10)
  else none

/-- `usize::from_str_radix(s, 16)`: an optional leading `+`, then at least
one hex digit; fails on any other character, on the empty digit string,
and on overflow past the 64-bit `usize` range (the Rust overflow check
fires during accumulation, which is equivalent to the final bound check
since the accumulator grows monotonically). -/
def from_str_radix16 (s : String) : Option Nat :=
  let cs :=
    match s.toList with
    | '+' :: rest => rest
    | l => l
  if cs.isEmpty then none
  else
    (cs.foldl
        (fun acc c => acc.bind fun a => (hexDigitVal? c).map fun d => 16 * a + d)
        (some 0)).bind
      fun n => if n < 2 ^ 64 then some n else none

/-- Rust `str::split('.')`: the pieces between the dots, in order, with
empty pieces preserved (the empty string yields one empty piece). -/
def splitDotAux : List Char → List Char → List String
  | [], acc => [String.mk acc.reverse]
  | c :: cs, acc =>
    if c = '.' then String.mk acc.reverse :: splitDotAux cs []
    else splitDotAux cs (c :: acc)

/-- `filename.split('.')`. -/
def splitDot (s : String) : List String :=
  splitDotAux s.toList []

/-- `decode_segment_path`, applied to a directory entry's file name
(`Path::file_name` of `dir.join(name)` returns `name`): split on `.`,
parse the first two parts as hexadecimal, and classify by the third part
(`None` ⇒ committed, `"tmp"` ⇒ uncommitted, anything else ⇒ unrecognised).
Parts beyond the third are never examined — a quirk of the code. -/
def decode_segment_path (filename : String) :
    Option (TransactionId × SegmentNum × Bool) := do
  let parts := splitDot filename
  let p0 ← parts.get? 0
  let txn_id ← from_str_radix16 p0
  let p1 ← parts.get? 1
  let seg_num ← from_str_radix16 p1
  let committed ←
    match parts.get? 2 with
    | none => some true
    | some t => if t = "tmp" then some false else none
  some (txn_id, seg_num, committed)

/-! ## Database (`src/database.rs`) -/
/-- `HashSet::insert`, on a duplicate-free list model. -/
def insertSeg (l : List SegmentId) (x : SegmentId) : List SegmentId :=
  if x ∈ l then l else l ++ [x]

/-- `ScanResult` of `database::scan_files`. -/
structure ScanResult where
  next_transaction_id : TransactionId
  committed_segments : List SegmentId

/-- The loop body of `scan_files`: every recognisable segment file name
raises `max_seen_txn_id`; `.tmp` files are deleted (recorded in the third
component, the ghost list of deleted entries); the rest are inserted into
the committed set. -/
def scanFilesStep (st : Nat × List SegmentId × List String) (entry : String) :
    Nat × List SegmentId × List String :=
  match decode_segment_path entry with
  | none => st
  | some (txn_id, seg_num, committed) =>
    let mx := if txn_id > st.1 then txn_id else st.1
    if committed then (mx, insertSeg st.2.1 (txn_id, seg_num), st.2.2)
    else (mx, st.2.1, st.2.2 ++ [entry])

/-- `scan_files`, over the directory entries in the order `read_dir`
returns them (arbitrary; the result is order-independent). -/
def scan_files (entries : List String) : ScanResult × List String :=
  let st := entries.foldl scanFilesStep (0, [], [])
  ({ next_transaction_id := st.1 + 1, committed_segments := st.2.1 }, st.2.2)

/-- `Database` (the two caches are not part of the modelled state: the
claims settled here do not observe them). -/
structure Database where
  path : String
  schema : Schema
  next_transaction_id : TransactionId
  committed_segments : List SegmentId

/-- `Database::create` (directory creation and `schema.json` writing are
file-system effects outside the model). -/
def Database.create (schema : Schema) (path : String) : Database :=
  { path := path
    schema := schema
    next_transaction_id := 1
    committed_segments := [] }

/-- `Database::open`: the schema comes from `schema.json` (abstracted to a
parameter) and the directory listing from `read_dir` (the `entries`
parameter, in an arbitrary order); returns the database together with the
ghost list of deleted `.tmp` entries. -/
def Database.open (schema : Schema) (path : String) (entries : List String) :
    Database × List String :=
  let r := scan_files entries
  ({ path := path
     schema := schema
     next_transaction_id := r.1.next_transaction_id
     committed_segments := r.1.committed_segments },
    r.2)

/-- `Database::get_next_transaction_id`. -/
def Database.get_next_transaction_id (db : Database) :
    TransactionId × Database :=
  (db.next_transaction_id,
    { db with next_transaction_id := db.next_transaction_id + 1 })

/-- `Database::add_committed_segment`. -/
def Database.add_committed_segment (db : Database) (seg_id : SegmentId) :
    Database :=
  { db with committed_segments := insertSeg db.committed_segments seg_id }

/-- `Database::get_visible_committed_segments`. -/
def Database.get_visible_committed_segments (db : Database)
    (horizon : TransactionId) : List SegmentId :=
  db.committed_segments.filter (fun seg => seg.1 < horizon)

/-! ## Segment creation and renaming (`src/segment.rs`, `src/transaction.rs`)
Modelled from the spec: the revision of `Segment` that `src/scan.rs` and
`src/transaction.rs` compile against is not among the source files
(`src/segment.rs` carries a `block_info` table instead of the
`cached_blocks` map the scan iterates).  Per the spec, a created segment's
blocks remain reachable by the transaction's own scans, so `create`
retains the block list; the on-disk encoding itself is modelled separately
with `Block.save`/`Block.load`. -/
def Segment.create (database_path : String) (seg_id : SegmentId)
    (blocks : List Block) : Segment :=
  { id := seg_id
    path := get_segment_path database_path seg_id false
    cached_blocks := blocks }

/-- `Segment::make_visible`: rename the file and record the new path. -/
def Segment.make_visible (database_path : String) (s : Segment) : Segment :=
  { s with path := get_segment_path database_path s.id true }

/-! ## Transaction (`src/transaction.rs`) -/
/-- `Transaction`.  The unsaved-block `HashMap` is modelled as an
association list in insertion order (Rust's iteration order is
arbitrary). -/
structure Transaction where
  id : Option TransactionId
  horizon : TransactionId
  db : Database
  unsaved_blocks : List (BlockKey × Block)
  uncommitted_segments : List Segment

/-- `Transaction::new` as invoked by `Database::new_transaction` (which
passes the database's `next_transaction_id` as the horizon). -/
def Database.new_transaction (db : Database) : Transaction :=
  { id := none
    horizon := db.next_transaction_id
    db := db
    unsaved_blocks := []
    uncommitted_segments := [] }

/-- `entry(key).or_insert_with(Block::new).add_row(values)` on the
association-list model of the unsaved map. -/
def updateAssoc (l : List (BlockKey × Block)) (k : BlockKey)
    (f : Block → Block) (dflt : Block) : List (BlockKey × Block) :=
  if l.any (fun p => p.1 = k) then
    l.map (fun p => if p.1 = k then (p.1, f p.2) else p)
  else l ++ [(k, f dflt)]

/-- `Transaction::add_row`. -/
def Transaction.add_row (t : Transaction) (values : List Datum) :
    Transaction :=
  let key := t.db.schema.get_chunk_key values
  { t with
      unsaved_blocks :=
        updateAssoc t.unsaved_blocks key (fun b => b.add_row values)
          (Block.new t.db.schema.dimensions.length) }

/-- `Transaction::get_transaction_id`: lazily allocate from the
database. -/
def Transaction.get_transaction_id (t : Transaction) :
    TransactionId × Transaction :=
  match t.id with
  | some i => (i, t)
  | none =>
    let p := t.db.get_next_transaction_id
    (p.1, { t with id := some p.1, db := p.2 })

/-- `Transaction::flush`: no-op when nothing is unsaved; otherwise
allocate the transaction id if necessary, drain the unsaved map into a
fresh temp-file segment and stage it. -/
def Transaction.flush (t : Transaction) : Transaction :=
  if t.unsaved_blocks.isEmpty then t
  else
    let p := t.get_transaction_id
    let t := p.2
    let seg_num := t.uncommitted_segments.length
    let blocks := t.unsaved_blocks.map Prod.snd
    let seg := Segment.create t.db.path (p.1, seg_num) blocks
    { t with
        unsaved_blocks := []
        uncommitted_segments := t.uncommitted_segments ++ [seg] }

/-- The pop-from-the-back loop of `Transaction::commit_segments`,
expressed over the reversed staged-segment list; returns the updated
database together with the ghost trace of segments in the order they were
renamed. -/
def commitSegsRev (database_path : String) (db : Database) :
    List Segment → Database × List Segment
  | [] => (db, [])
  | s :: rest =>
    let s' := s.make_visible database_path
    let db' := db.add_committed_segment s'.id
    let p := commitSegsRev database_path db' rest
    (p.1, s' :: p.2)

/-- `Transaction::commit_segments`. -/
def Transaction.commit_segments (t : Transaction) :
    Transaction × List Segment :=
  let p := commitSegsRev t.db.path t.db t.uncommitted_segments.reverse
  ({ t with db := p.1, uncommitted_segments := [] }, p.2)

/-- `Transaction::commit`: flush, then rename the staged segments in
reverse order. -/
def Transaction.commit (t : Transaction) : Transaction × List Segment :=
  t.flush.commit_segments

/-- `Transaction::query`.  The scan source stands for
`Database::get_scan_source` (which reads committed segment files through
the cache, a file-system effect); it is passed as a parameter and is only
consulted for committed `SegmentId` sources. -/
def Transaction.query (t : Transaction)
    (source : SegmentId → Option Segment) : Scan :=
  let num_dims := t.db.schema.dimensions.length
  let s := Scan.new source num_dims (t.id.getD 0)
  let s := (t.db.get_visible_committed_segments t.horizon).foldl
    Scan.add_segment_id s
  let s := t.uncommitted_segments.foldl Scan.add_segment s
  let s := (t.unsaved_blocks.map Prod.snd).foldl Scan.add_block s
  s

/-! ## Claim C1: rows added to a transaction and `query()` -/
/-- The schema of the repository's integration test: two dimensions with
chunk sizes 500 and 100, one value column. -/
def c1schema : Schema :=
  { dimensions := [⟨"time", 500⟩, ⟨"sensor_id", 100⟩], values := [⟨"value"⟩] }

/-- A fresh unflushed transaction that has added the single row
`[7, 4, 99]`. -/
def c1txn : Transaction :=
  ((Database.create c1schema "/db").new_transaction).add_row [7, 4, 99]

/-! ## Claim C2: the scan merge emits one row per covered coordinate -/
/-- The block of the repository's own unit test
`scan_tests::one_local_block`: rows `[7, 4, 99]` and `[9, 0, 101]`. -/
def c2block : Block :=
  [[7, 4, 99], [9, 0, 101]].foldl Block.add_row (Block.new 2)

/-- A scan over that single block, exactly as in the unit test
(`num_dims = 2`, transaction id 5). -/
def c2scan : Scan :=
  (Scan.new (fun _ => none) 2 5).add_block c2block

/-! ## Claim C3: values are stored at the row-major linear index -/
/-- The row-major linear index described by the spec: coordinate `idxᵢ`
scaled by the product of all later axis lengths (last dimension varying
fastest).  This is the comparison definition the claim measures
`Block.get_index` against. -/
def rowMajorIndex (sizes : List Nat) (idxs : List Nat) : Nat :=
  (List.zipWith (fun i tailSizes => i * tailSizes)
    idxs
    ((List.range idxs.length).map (fun k => ((sizes.drop (k + 1)).prod)))).sum

/-- A three-dimensional block receiving rows `(0,0,0) ↦ 100`,
`(0,0,1) ↦ 101`, `(1,0,0) ↦ 102`. -/
def c3block : Block :=
  [[0, 0, 0, 100], [0, 0, 1, 101], [1, 0, 0, 102]].foldl Block.add_row
    (Block.new 3)

/-! ## Claim C4: queued start points are the sources' minima -/
/-- A block holding the single row `[7, 4, 99]` (start point `(7, 4)`). -/
def c4block : Block := Block.add_row (Block.new 2) [7, 4, 99]

/-- A committed segment containing `c4block`; its minimum coordinate is
`(7, 4)`. -/
def c4segment : Segment :=
  { id := (5, 0), path := "/db/00000005.00000000", cached_blocks := [c4block] }

/-- The database scan source resolving segment `(5, 0)`. -/
def c4source : SegmentId → Option Segment :=
  fun sid => if sid = (5, 0) then some c4segment else none

/-- A scan to which the committed segment id `(5, 0)` has been added. -/
def c4scan : Scan := (Scan.new c4source 2 0).add_segment_id (5, 0)

/-- The maximum transaction id appearing in any recognisable entry of a
directory listing (0 when there is none). -/
def maxSeenTxn (entries : List String) : Nat :=
  (entries.filterMap
    (fun e => (decode_segment_path e).map (fun r => r.1))).foldl max 0

/-- The `.tmp` test `scan_files` effectively applies to an entry. -/
def isTmpEntry (e : String) : Bool :=
  match decode_segment_path e with
  | some (_, _, false) => true
  | _ => false

/-! ## Claim C7: the block byte codec round-trips -/
/-- Big-endian bytes of `n` in `k` bytes — what `write_u16`, `write_u32`,
`write_u64` (`BE`) and `usize::to_be_bytes` emit, truncation to the
integer width included (the bytes encode `n % 256 ^ k`). -/
def beBytes : Nat → Nat → List Nat
  | 0, _ => []
  | k + 1, n => beBytes k (n / 256) ++ [n % 256]

/-- `read_u16` / `read_u32` / `read_u64` (`BE`): consume `k` bytes,
big-endian; a short stream is an error. -/
def readBE (k : Nat) (bytes : List Nat) : Option (Nat × List Nat) :=
  if k ≤ bytes.length then
    some ((bytes.take k).foldl (fun a b => a * 256 + b) 0, bytes.drop k)
  else none

/-- The byte stream `Block::save` feeds to the compressor (the zstd codec
itself is the spec's black-box streaming compressor and is modelled as
the identity on the stream): the `u16` dimension count; per axis a `u32`
length followed by its values as `u64`s; one presence byte per slot
(1 = absent, 0 = present); then the present values as `u64`s in slot
order. -/
def Block.save (b : Block) : List Nat :=
  beBytes 2 b.dimension_values.length ++
    (b.dimension_values.map
      (fun dim => beBytes 4 dim.length ++
        (dim.map (fun v => beBytes 8 v)).flatten)).flatten ++
    b.values.map (fun v => match v with | some _ => 0 | none => 1) ++
    (b.values.filterMap (fun v => v.map (fun x => beBytes 8 x))).flatten

/-- The inner loop of `Block::load` reading one axis's values. -/
def readVals : Nat → List Nat → Option (List Datum × List Nat)
  | 0, bytes => some ([], bytes)
  | n + 1, bytes =>
    match readBE 8 bytes with
    | none => none
    | some (v, bytes) =>
      match readVals n bytes with
      | none => none
      | some (vs, bytes) => some (v :: vs, bytes)

/-- The dimensions loop of `Block::load`. -/
def readDims : Nat → List Nat → Option (List (List Datum) × List Nat)
  | 0, bytes => some ([], bytes)
  | d + 1, bytes =>
    match readBE 4 bytes with
    | none => none
    | some (size, bytes) =>
      match readVals size bytes with
      | none => none
      | some (vals, bytes) =>
        match readDims d bytes with
        | none => none
        | some (rest, bytes) => some (vals :: rest, bytes)

/-- The values loop of `Block::load`: a slot is absent when its presence
byte equals 1, otherwise its `u64` value follows in the value stream. -/
def readValues : List Nat → List Nat → Option (List (Option Datum) × List Nat)
  | [], bytes => some ([], bytes)
  | m :: ms, bytes =>
    if m = 1 then
      match readValues ms bytes with
      | none => none
      | some (rest, bytes) => some (none :: rest, bytes)
    else
      match readBE 8 bytes with
      | none => none
      | some (v, bytes) =>
        match readValues ms bytes with
        | none => none
        | some (rest, bytes) => some (some v :: rest, bytes)

/-- `Block::load` over the decompressed stream: the `u16` dimension count,
the axes (tracking `num_values` as the product of the read axis sizes),
`num_values` presence bytes (`read_exact`), then the present values. -/
def Block.load (bytes : List Nat) : Option (Block × List Nat) :=
  match readBE 2 bytes with
  | none => none
  | some (d, bytes) =>
    match readDims d bytes with
    | none => none
    | some (dims, bytes) =>
      if (dims.map List.length).prod ≤ bytes.length then
        match readValues (bytes.take (dims.map List.length).prod)
            (bytes.drop (dims.map List.length).prod) with
        | none => none
        | some (vals, bytes) => some (⟨dims, vals⟩, bytes)
      else none

/-! ## Claim C5: the block density invariant -/
/-- Well-formedness of a block: the values vector is dense
(`|V| = ∏|Aᵢ|`) and every axis is strictly increasing. -/
def blockWf (b : Block) : Prop :=
  b.values.length = (b.dimension_values.map List.length).prod ∧
  ∀ a ∈ b.dimension_values, List.Sorted (· < ·) a

/-- The coordinate tuple a block's axes give to a tuple of per-axis
indexes (what `BlockIter::next` assembles before appending the value). -/
def coordsAt (b : Block) (t : List Nat) : List Datum :=
  List.zipWith (fun dv i => dv.getD i 0) b.dimension_values t

/-- Every position of the index tuple is inside its axis. -/
def fullInRange (b : Block) (t : List Nat) : Prop :=
  ∀ i, i < t.length →
    t.getD i 0 < (b.dimension_values.map List.length).getD i 0

/-- Invariant of a block iterator with `D` axes: a well-formed block and an
odometer of the right length whose positions past the first are in range
(trivially so for a valueless block, which yields nothing). -/
def wfIter (D : Nat) (it : BlockIter) : Prop :=
  blockWf it.block ∧ it.block.dimension_values.length = D ∧
  it.indexes.length = D ∧
  (it.block.values = [] ∨
    ∀ i, 1 ≤ i → i < D →
      it.indexes.getD i 0 <
        (it.block.dimension_values.map List.length).getD i 0)

/-- All blocks of a segment are well-formed with `D` axes. -/
def wfSeg (D : Nat) (seg : Segment) : Prop :=
  ∀ b ∈ seg.cached_blocks, blockWf b ∧ b.dimension_values.length = D

/-- A queued start point lower-bounds a block's start point. -/
def startLB (D : Nat) (sp : List Datum) (b : Block) : Prop :=
  ∀ st, b.get_start_point = some st → compare_points D sp st ≠ .gt

/-- Well-formedness of a queued item: its start point is no longer than
`D` and lower-bounds everything the item can contribute. -/
def wfQItem (src : SegmentId → Option Segment) (D : Nat)
    (item : QueuedItem) : Prop :=
  item.start_point.length ≤ D ∧
  match item.ty with
  | .segmentId sid =>
    ∀ seg, src sid = some seg →
      wfSeg D seg ∧ ∀ b ∈ seg.cached_blocks, startLB D item.start_point b
  | .segment seg =>
    wfSeg D seg ∧ ∀ b ∈ seg.cached_blocks, startLB D item.start_point b
  | .blockId _ => True
  | .block b =>
    blockWf b ∧ b.dimension_values.length = D ∧ startLB D item.start_point b
  | .segmentBlock _ b =>
    blockWf b ∧ b.dimension_values.length = D ∧ startLB D item.start_point b

/-- Every row the iterator can still yield lies strictly above `p`. -/
def rowLB (D : Nat) (it : BlockIter) (p : List Datum) : Prop :=
  ∀ g r it2, blockIterNextAux g it = some (r, it2) →
    compare_points D p r = .lt

/-- Well-formedness of a live item: a well-formed iterator whose pending
current row, if any, has `D + 1` entries and lower-bounds the iterator's
future rows strictly. -/
def wfLive (D : Nat) (li : LiveItem) : Prop :=
  wfIter D li.iter ∧
  ∀ c, li.current = some c → c.length = D + 1 ∧ rowLB D li.iter c

/-- The scan invariant. -/
def wfScan (s : Scan) : Prop :=
  1 ≤ s.num_dims ∧
  (∀ item ∈ s.queue, wfQItem s.source s.num_dims item) ∧
  (∀ li ∈ s.live, wfLive s.num_dims li)

/-- Everything queued starts strictly above `p`. -/
def boundQ (D : Nat) (p : List Datum) (q : List QueuedItem) : Prop :=
  ∀ item ∈ q, compare_points D p item.start_point = .lt

/-- Every live current row is strictly above `p`. -/
def boundL (D : Nat) (p : List Datum) (live : List LiveItem) : Prop :=
  ∀ li ∈ live, ∀ c, li.current = some c → compare_points D p c = .lt

/-- The first loop of `Scan::next`: the minimum over live current rows,
seeded with the least queued start point; the flag records whether the
seed is still the frontier. -/
def cfFold (D : Nat) (live : List LiveItem)
    (init : Option (List Datum) × Bool) : Option (List Datum) × Bool :=
  live.foldl
    (fun cf item =>
      match item.current with
      | none => cf
      | some c =>
        match cf.1 with
        | none => (some c, false)
        | some cur =>
          if (compare_points D c cur).isLT then (some c, false)
          else cf)
    init

/-- The second loop of `Scan::next`: advance every live iterator standing
at the frontier and keep the best (highest-transaction) frontier row. -/
def blFold (D : Nat) (current_point : List Datum) (live : List LiveItem)
    (init : List LiveItem × Nat × Option (List Datum)) :
    List LiveItem × Nat × Option (List Datum) :=
  live.foldl
    (fun st item =>
      match item.current with
      | none => (st.1 ++ [item], st.2)
      | some c =>
        if compare_points D c current_point = .eq then
          let item' :=
            match item.iter.next with
            | none => { item with current := none }
            | some (row, it') =>
              { item with current := some row, iter := it' }
          if item.txn_id > st.2.1 then (st.1 ++ [item'], item.txn_id, some c)
          else (st.1 ++ [item'], st.2)
        else (st.1 ++ [item], st.2))
    init

/-- One step of the second loop of `Scan::next`. -/
def blStep (D : Nat) (current_point : List Datum)
    (st : List LiveItem × Nat × Option (List Datum)) (item : LiveItem) :
    List LiveItem × Nat × Option (List Datum) :=
  match item.current with
  | none => (st.1 ++ [item], st.2)
  | some c =>
    if compare_points D c current_point = .eq then
      let item' :=
        match item.iter.next with
        | none => { item with current := none }
        | some (row, it') => { item with current := some row, iter := it' }
      if item.txn_id > st.2.1 then (st.1 ++ [item'], item.txn_id, some c)
      else (st.1 ++ [item'], st.2)
    else (st.1 ++ [item], st.2)

/-- Everything still held by the scan lies strictly above `p`. -/
def boundS (s : Scan) (p : List Datum) : Prop :=
  boundQ s.num_dims p s.queue ∧ boundL s.num_dims p s.live

def c6block : Block :=
  [[7, 4, 99], [9, 0, 101]].foldl Block.add_row (Block.new 2)

def c6scan : Scan :=
  (Scan.new (fun _ => none) 2 5).add_block c6block

/-! ## Theorems -/

namespace Scan

theorem popMin_none {q : List QueuedItem} (h : popMin q = none) : q = [] := by
  cases q with
  | nil => rfl
  | cons x xs =>
    exfalso
    simp only [popMin] at h
    cases hx : popMin xs with
    | none => rw [hx] at h; exact absurd h (by simp)
    | some p =>
      rw [hx] at h
      obtain ⟨m, rest⟩ := p
      by_cases hc :
          (compare_points x.start_point.length x.start_point m.start_point).isGT <;>
        simp [hc] at h

theorem popMin_perm :
    ∀ {q : List QueuedItem} {item : QueuedItem} {rest : List QueuedItem},
      popMin q = some (item, rest) → q.Perm (item :: rest) := by
  intro q
  induction q with
  | nil => intro item rest h; simp [popMin] at h
  | cons x xs ih =>
    intro item rest h
    simp only [popMin] at h
    cases hx : popMin xs with
    | none =>
      rw [hx] at h
      have hnil : xs = [] := popMin_none hx
      subst hnil
      simp at h
      obtain ⟨h1, h2⟩ := h
      subst h1; subst h2
      exact List.Perm.refl _
    | some p =>
      rw [hx] at h
      obtain ⟨m, rest'⟩ := p
      by_cases hc : (compare_points x.start_point.length x.start_point m.start_point).isGT
      · simp only [if_pos hc, Option.some.injEq, Prod.mk.injEq] at h
        obtain ⟨rfl, rfl⟩ := h
        exact ((ih hx).cons x).trans (List.Perm.swap _ x rest')
      · simp only [if_neg hc, Option.some.injEq, Prod.mk.injEq] at h
        obtain ⟨rfl, rfl⟩ := h
        exact List.Perm.refl _

theorem queueWeight_cons (src : SegmentId → Option Segment) (i : QueuedItem)
    (q : List QueuedItem) :
    queueWeight src (i :: q) = itemWeight src i + queueWeight src q := by
  simp [queueWeight]

theorem popMin_queueWeight {q : List QueuedItem} {item : QueuedItem}
    {rest : List QueuedItem} (h : popMin q = some (item, rest))
    (src : SegmentId → Option Segment) :
    queueWeight src q = itemWeight src item + queueWeight src rest := by
  have hp := (popMin_perm h).map (itemWeight src)
  simpa [queueWeight] using hp.sum_eq

theorem add_segment_block_source (s : Scan) (seg : Segment) (b : Block) :
    (s.add_segment_block seg b).source = s.source := by
  rw [add_segment_block]
  cases b.get_start_point <;> rfl

theorem add_segment_block_weight (src : SegmentId → Option Segment) (s : Scan)
    (seg : Segment) (b : Block) :
    queueWeight src (s.add_segment_block seg b).queue ≤
      1 + queueWeight src s.queue := by
  rw [add_segment_block]
  cases b.get_start_point with
  | none => exact Nat.le_add_left _ _
  | some p =>
    show queueWeight src
        ({ start_point := p, ty := QType.segmentBlock seg b } :: s.queue) ≤
      1 + queueWeight src s.queue
    rw [queueWeight_cons]
    exact Nat.le_refl _

theorem foldl_add_segment_block_source (s : Scan) (seg : Segment)
    (blocks : List Block) :
    (blocks.foldl (fun s b => s.add_segment_block seg b) s).source = s.source := by
  induction blocks generalizing s with
  | nil => rfl
  | cons b bs ih => simp only [List.foldl_cons, ih, add_segment_block_source]

theorem foldl_add_segment_block_weight (src : SegmentId → Option Segment)
    (s : Scan) (seg : Segment) (blocks : List Block) :
    queueWeight src
        ((blocks.foldl (fun s b => s.add_segment_block seg b) s).queue) ≤
      blocks.length + queueWeight src s.queue := by
  induction blocks generalizing s with
  | nil => simp
  | cons b bs ih =>
    simp only [List.foldl_cons, List.length_cons]
    have h1 := ih (s.add_segment_block seg b)
    have h2 := add_segment_block_weight src s seg b
    omega

theorem add_segment_source (s : Scan) (seg : Segment) :
    (s.add_segment seg).source = s.source := by
  rw [add_segment]
  cases segmentStartPoint seg <;> rfl

theorem add_segment_weight (src : SegmentId → Option Segment) (s : Scan)
    (seg : Segment) :
    queueWeight src (s.add_segment seg).queue ≤
      1 + 2 * seg.cached_blocks.length + queueWeight src s.queue := by
  rw [add_segment]
  cases segmentStartPoint seg with
  | none => exact Nat.le_add_left _ _
  | some p =>
    show queueWeight src
        ({ start_point := p, ty := QType.segment seg } :: s.queue) ≤
      1 + 2 * seg.cached_blocks.length + queueWeight src s.queue
    rw [queueWeight_cons]
    show 1 + 2 * seg.cached_blocks.length + queueWeight src s.queue ≤ _
    exact Nat.le_refl _

theorem processItem_source (s : Scan) (item : QueuedItem) :
    (processItem s item).source = s.source := by
  obtain ⟨sp, ty⟩ := item
  cases ty with
  | segmentId sid =>
    cases hs : s.source sid with
    | none => simp [processItem, hs]
    | some seg => simp [processItem, hs, add_segment_source]
  | segment seg =>
    simpa [processItem] using foldl_add_segment_block_source s seg _
  | blockId bid => simp [processItem]
  | block b =>
    cases hn : (Block.iter b).next with
    | none => simp [processItem, hn]
    | some p => obtain ⟨row, it'⟩ := p; simp [processItem, hn]
  | segmentBlock seg b =>
    cases hn : (Block.iter b).next with
    | none => simp [processItem, hn]
    | some p => obtain ⟨row, it'⟩ := p; simp [processItem, hn]

theorem processItem_weight (s : Scan) (item : QueuedItem) :
    queueWeight s.source (processItem s item).queue <
      itemWeight s.source item + queueWeight s.source s.queue := by
  obtain ⟨sp, ty⟩ := item
  cases ty with
  | segmentId sid =>
    cases hs : s.source sid with
    | none => simp [processItem, hs, itemWeight]
    | some seg =>
      have h1 := add_segment_weight s.source s seg
      simp only [processItem, hs, itemWeight]
      show queueWeight s.source (s.add_segment seg).queue <
        2 + (1 + 2 * seg.cached_blocks.length) + queueWeight s.source s.queue
      refine lt_of_le_of_lt h1 ?_
      omega
  | segment seg =>
    have := foldl_add_segment_block_weight s.source s seg seg.cached_blocks
    simp only [processItem, itemWeight]
    omega
  | blockId bid => simp [processItem, itemWeight]
  | block b =>
    cases hn : (Block.iter b).next with
    | none => simp [processItem, hn, itemWeight]
    | some p => obtain ⟨row, it'⟩ := p; simp [processItem, hn, itemWeight]
  | segmentBlock seg b =>
    cases hn : (Block.iter b).next with
    | none => simp [processItem, hn, itemWeight]
    | some p => obtain ⟨row, it'⟩ := p; simp [processItem, hn, itemWeight]

theorem itemWeight_pos (src : SegmentId → Option Segment)
    (item : QueuedItem) : 1 ≤ itemWeight src item := by
  obtain ⟨sp, ty⟩ := item
  cases ty with
  | segmentId sid =>
    cases hs : src sid with
    | none => simp [itemWeight, hs]
    | some seg => simp [itemWeight, hs]; omega
  | segment seg => simp [itemWeight]
  | blockId bid => simp [itemWeight]
  | block b => simp [itemWeight]
  | segmentBlock seg b => simp [itemWeight]

theorem queueWeight_nil_of_le_zero {s : Scan}
    (h : queueWeight s.source s.queue ≤ 0) : s.queue = [] := by
  cases hq : s.queue with
  | nil => rfl
  | cons x xs =>
    exfalso
    have h1 : 1 ≤ itemWeight s.source x := itemWeight_pos _ _
    rw [hq, queueWeight_cons] at h
    omega

/-- Any fuel at least the queue weight gives the same result as the
limit; in particular `check_queue`'s fuel never runs out. -/
theorem checkQueueAux_fuel_free (fuel fuel' : Nat) (s : Scan)
    (current : List Datum) (h : queueWeight s.source s.queue ≤ fuel)
    (h' : queueWeight s.source s.queue ≤ fuel') :
    checkQueueAux fuel s current = checkQueueAux fuel' s current := by
  induction fuel generalizing fuel' s with
  | zero =>
    cases fuel' with
    | zero => rfl
    | succ m =>
      have hp : popMin s.queue = none := by rw [queueWeight_nil_of_le_zero h]; rfl
      simp [checkQueueAux, hp]
  | succ n ih =>
    cases fuel' with
    | zero =>
      have hp : popMin s.queue = none := by rw [queueWeight_nil_of_le_zero h']; rfl
      simp [checkQueueAux, hp]
    | succ m =>
      simp only [checkQueueAux]
      cases hp : popMin s.queue with
      | none => rfl
      | some p =>
        obtain ⟨item, rest⟩ := p
        by_cases hc : (compare_points s.num_dims item.start_point current).isGT
        · simp [hc]
        · simp only [hc, if_false, Bool.false_eq_true]
          have h2 : queueWeight s.source
              (processItem { s with queue := rest } item).queue <
              itemWeight s.source item + queueWeight s.source rest :=
            processItem_weight { s with queue := rest } item
          have h3 := popMin_queueWeight hp s.source
          have hsrc := processItem_source { s with queue := rest } item
          refine ih _ _ ?_ ?_ <;>
          · rw [hsrc]
            show queueWeight s.source
              (processItem { s with queue := rest } item).queue ≤ _
            omega

end Scan

/-- C1: the claim fails on the code.  The transaction has no id yet
(`id = none`, so its scan runs with `this_txn_id = 0`) and its unsaved
block holds exactly the added row `[7, 4, 99]`; yet `query()` emits
nothing — not in the first `next()` call nor in any of the following ones
— because the best-row selection `item.txn_id > best_txn_id` can never
accept a row attributed to transaction id 0 (`best_txn_id` starts at 0).
The claim says the row appears attributed to 0. -/
theorem claim_C1 :
    c1txn.id = none ∧
    (c1txn.unsaved_blocks.map fun p => p.2.rows) = [[[7, 4, 99]]] ∧
    (runScan 8 (c1txn.query fun _ => none)).1 = [] :=
  ⟨rfl, rfl, rfl⟩

/-- C2: the claim fails on the code.  The block visibly contains the
coordinates `(7, 4)` and `(9, 0)`, but the scan's very first `next()`
returns `None`, so as an iterator it emits nothing: the frontier is the
block's `start_point` `(7, 0)` (the tuple of axis minima), the slot at
`(7, 0)` is absent, and after activation no live row equals the frontier,
so `best_row` stays `None`.  This also contradicts the repository's own
test `scan_tests::one_local_block`, which expects `[7, 4, 99]` and then
`[9, 0, 101]` from this scan. -/
theorem claim_C2 :
    c2block.rows = [[7, 4, 99], [9, 0, 101]] ∧
    c2scan.next.1 = none ∧
    scanToList 5 c2scan = [] :=
  ⟨rfl, rfl, rfl⟩

/-- C3: the claim is right and the code is wrong for `D ≥ 3`.
`get_index` scales the index on axis `i` by `|A_{i+1}|` instead of
`∏_{j>i} |A_j|`, so after the three insertions (axis sizes 2, 1, 2) the
row `(1,0,0) ↦ 102` is written at linear index 1 — the slot of coordinate
`(0,0,1)` (its row-major index is 2): the stored values are
`[100, 102, −, −]`, and iteration yields `(0,0,0) ↦ 100` and
`(0,0,1) ↦ 102` — the coordinate `(1,0,0)` is lost and `(0,0,1)` carries
the wrong value.  (The iterator's own commented-out assertion
`assert_eq!(self.value_index, calculated_idx)` and the row-major strides
used by `insert_slice` show the row-major layout is the intent.) -/
theorem claim_C3 :
    c3block.dimension_values = [[0, 1], [0], [0, 1]] ∧
    c3block.get_index [1, 0, 0] = 1 ∧
    rowMajorIndex (c3block.dimension_values.map List.length) [1, 0, 0] = 2 ∧
    c3block.values = [some 100, some 102, none, none] ∧
    c3block.rows = [[0, 0, 0, 100], [0, 0, 1, 102]] :=
  ⟨rfl, rfl, rfl, rfl, rfl⟩

/-- C4 counterexample: `add_segment_id` queues the committed segment
`(5, 0)` under the placeholder start point `[0, 0]`, although the
segment's minimum coordinate is `(7, 4)`. -/
theorem claim_C4_counterexample :
    (c4scan.queue.map QueuedItem.start_point) = [[0, 0]] ∧
    Scan.segmentStartPoint c4segment = some [7, 4] ∧
    ([0, 0] : List Datum) ≠ [7, 4] :=
  ⟨rfl, rfl, by decide⟩

/-- C4 as amended: a Block source is queued under its `A[0]` tuple and an
in-memory Segment under the minimum of its blocks' minima, but a committed
`SegmentId` source is queued under the fixed placeholder `[0, 0]`
(`//TODO should know the segment coords`), regardless of the segment's
actual minimum coordinate. -/
theorem claim_C4 (s : Scan) :
    (∀ b p, Block.get_start_point b = some p →
      (s.add_block b).queue = ⟨p, .block b⟩ :: s.queue) ∧
    (∀ seg m, Scan.segmentStartPoint seg = some m →
      (s.add_segment seg).queue = ⟨m, .segment seg⟩ :: s.queue) ∧
    (∀ sid, (s.add_segment_id sid).queue = ⟨[0, 0], .segmentId sid⟩ :: s.queue) := by
  refine ⟨?_, ?_, ?_⟩
  · intro b p hp
    rw [Scan.add_block, hp]
  · intro seg m hm
    rw [Scan.add_segment, hm]
  · intro sid
    rfl

/-- Witness for C4 at concrete inputs: the hypotheses hold for `c4block`
and `c4segment`, and the amended conclusions evaluate as stated. -/
theorem claim_C4_witness :
    ((Scan.new c4source 2 0).add_block c4block).queue =
        [⟨[7, 4], .block c4block⟩] ∧
    ((Scan.new c4source 2 0).add_segment c4segment).queue =
        [⟨[7, 4], .segment c4segment⟩] ∧
    c4scan.queue = [⟨[0, 0], .segmentId (5, 0)⟩] := by
  obtain ⟨h1, h2, h3⟩ := claim_C4 (Scan.new c4source 2 0)
  exact ⟨h1 c4block [7, 4] rfl, h2 c4segment [7, 4] rfl, h3 (5, 0)⟩

/-! ## Claim C10: multiple value columns write the same slot -/
theorem get_index_values_irrel (b : Block) (v : List (Option Datum))
    (idxs : List Nat) :
    Block.get_index { b with values := v } idxs = Block.get_index b idxs := rfl

theorem writeLoop_last (idxs : List Nat) (vals : List Datum) :
    ∀ (k : Nat) (start : Nat) (b : Block), 1 ≤ k →
    (List.range' start k).foldl
        (fun (b : Block) value_no =>
          { b with
              values :=
                b.values.set (b.get_index idxs) (some (vals.getD value_no 0)) })
        b =
      { b with
          values :=
            b.values.set (b.get_index idxs)
              (some (vals.getD (start + k - 1) 0)) } := by
  intro k
  induction k with
  | zero => intro start b h; omega
  | succ n ih =>
    intro start b _
    cases n with
    | zero => simp [List.range']
    | succ m =>
      rw [List.range'_succ, List.foldl_cons]
      rw [ih (start + 1) _ (by omega)]
      simp only [get_index_values_irrel, List.set_set]
      have : start + 1 + (m + 1) - 1 = start + (m + 1 + 1) - 1 := by omega
      rw [this]

theorem foldl_congr_mem {α β : Type} (l : List α) (f g : β → α → β)
    (init : β) (h : ∀ b a, a ∈ l → f b a = g b a) :
    l.foldl f init = l.foldl g init := by
  induction l generalizing init with
  | nil => rfl
  | cons x xs ih =>
    rw [List.foldl_cons, List.foldl_cons, h _ x (by simp)]
    exact ih _ (fun b a ha => h b a (by simp [ha]))

theorem addRowDims_congr (b : Block) (vals vals' : List Datum)
    (h : ∀ i, i < b.dimension_values.length → vals'.getD i 0 = vals.getD i 0) :
    Block.addRowDims b vals' = Block.addRowDims b vals := by
  unfold Block.addRowDims
  refine foldl_congr_mem _ _ _ _ ?_
  intro p a ha
  rw [h a (by simpa using ha)]

/-- C10: with two or more value columns every value of the row is written
into the same single slot (the block stores one optional `Datum` per
coordinate), so `add_row` is equivalent to adding the row with only its
last value column, and iteration pairs each coordinate with that single
retained value. -/
theorem claim_C10 (b : Block) (vals : List Datum)
    (h : b.dimension_values.length < vals.length) :
    b.add_row vals =
      b.add_row
        (vals.take b.dimension_values.length ++
          [vals.getD (vals.length - 1) 0]) := by
  have htl : (vals.take b.dimension_values.length).length =
      b.dimension_values.length := by
    simp [List.length_take]
    omega
  have hlen : (vals.take b.dimension_values.length ++
      [vals.getD (vals.length - 1) 0]).length = b.dimension_values.length + 1 := by
    simp [htl]
  have hget : ∀ i, i < b.dimension_values.length →
      (vals.take b.dimension_values.length ++
        [vals.getD (vals.length - 1) 0]).getD i 0 = vals.getD i 0 := by
    intro i hi
    rw [List.getD_append _ _ _ i (by rw [htl]; exact hi)]
    rw [List.getD_eq_getElem?_getD, List.getElem?_take, if_pos hi,
      ← List.getD_eq_getElem?_getD]
  unfold Block.add_row
  rw [addRowDims_congr b vals _ hget]
  rw [hlen]
  generalize Block.addRowDims b vals = p
  have h1 : 1 ≤ vals.length - b.dimension_values.length := by omega
  have h2 : b.dimension_values.length + 1 - b.dimension_values.length = 1 := by
    omega
  rw [h2]
  rw [writeLoop_last p.2 vals _ _ p.1 h1,
    writeLoop_last p.2
      (vals.take b.dimension_values.length ++ [vals.getD (vals.length - 1) 0])
      1 _ p.1 (Nat.le_refl 1)]
  have h3 : b.dimension_values.length +
      (vals.length - b.dimension_values.length) - 1 = vals.length - 1 := by
    omega
  have h4 : b.dimension_values.length + 1 - 1 = b.dimension_values.length := by
    omega
  rw [h3, h4]
  have h5 : (vals.take b.dimension_values.length ++
      [vals.getD (vals.length - 1) 0]).getD b.dimension_values.length 0 =
      vals.getD (vals.length - 1) 0 := by
    rw [List.getD_append_right (vals.take b.dimension_values.length)
      [vals.getD (vals.length - 1) 0] 0 b.dimension_values.length
      (le_of_eq htl), htl]
    simp
  rw [h5]

/-- Witness for C10: a two-dimensional block receiving the row
`[1, 2, 10, 20]` (two value columns) ends up exactly as if only the last
value column `20` had been supplied. -/
theorem claim_C10_witness :
    (Block.new 2).dimension_values.length < ([1, 2, 10, 20] : List Datum).length ∧
    (Block.new 2).add_row [1, 2, 10, 20] = (Block.new 2).add_row [1, 2, 20] :=
  ⟨by decide, claim_C10 (Block.new 2) [1, 2, 10, 20] (by decide)⟩

/-! ## Claim C9: `open` and the directory scan -/
theorem mem_insertSeg (l : List SegmentId) (y x : SegmentId) :
    x ∈ insertSeg l y ↔ x ∈ l ∨ x = y := by
  unfold insertSeg
  by_cases hy : y ∈ l
  · rw [if_pos hy]
    constructor
    · exact Or.inl
    · rintro (hx | rfl)
      · exact hx
      · exact hy
  · rw [if_neg hy]
    simp

theorem foldl_max_init (l : List Nat) :
    ∀ a : Nat, l.foldl max a = max a (l.foldl max 0) := by
  induction l with
  | nil => intro a; simp
  | cons x xs ih =>
    intro a
    rw [List.foldl_cons, List.foldl_cons, ih (max a x), ih (max 0 x),
      max_eq_right (Nat.zero_le x), max_assoc]

theorem scanFilesStep_fst (st : Nat × List SegmentId × List String)
    (e : String) (t : TransactionId) (sn : SegmentNum) (c : Bool)
    (hd : decode_segment_path e = some (t, sn, c)) :
    (scanFilesStep st e).1 = max st.1 t := by
  cases c with
  | false =>
    simp only [scanFilesStep, hd]
    show (if t > st.1 then t else st.1) = max st.1 t
    split
    next hlt => exact (max_eq_right (le_of_lt hlt)).symm
    next hlt => exact (max_eq_left (le_of_not_lt hlt)).symm
  | true =>
    simp only [scanFilesStep, hd]
    show (if t > st.1 then t else st.1) = max st.1 t
    split
    next hlt => exact (max_eq_right (le_of_lt hlt)).symm
    next hlt => exact (max_eq_left (le_of_not_lt hlt)).symm

theorem scanFilesStep_deleted (st : Nat × List SegmentId × List String)
    (e : String) :
    (scanFilesStep st e).2.2 =
      st.2.2 ++ (if isTmpEntry e then [e] else []) := by
  cases hd : decode_segment_path e with
  | none => simp [scanFilesStep, hd, isTmpEntry]
  | some r =>
    obtain ⟨t, sn, c⟩ := r
    cases c <;> simp [scanFilesStep, hd, isTmpEntry]

theorem scanFiles_fold_deleted (entries : List String) :
    ∀ st : Nat × List SegmentId × List String,
    (entries.foldl scanFilesStep st).2.2 =
      st.2.2 ++ entries.filter isTmpEntry := by
  induction entries with
  | nil => intro st; simp
  | cons e rest ih =>
    intro st
    rw [List.foldl_cons, ih, scanFilesStep_deleted, List.filter_cons]
    cases hmatch : isTmpEntry e <;> simp [hmatch]

theorem scanFilesStep_committed (st : Nat × List SegmentId × List String)
    (e : String) (x : SegmentId) :
    x ∈ (scanFilesStep st e).2.1 ↔
      x ∈ st.2.1 ∨ decode_segment_path e = some (x.1, x.2, true) := by
  obtain ⟨x1, x2⟩ := x
  cases hd : decode_segment_path e with
  | none => simp [scanFilesStep, hd]
  | some r =>
    obtain ⟨t, sn, c⟩ := r
    cases c with
    | false => simp [scanFilesStep, hd]
    | true =>
      have hstep : (scanFilesStep st e).2.1 = insertSeg st.2.1 (t, sn) := by
        simp [scanFilesStep, hd]
      rw [hstep, mem_insertSeg]
      refine or_congr Iff.rfl ?_
      constructor
      · intro h
        rw [Prod.mk.injEq] at h
        obtain ⟨rfl, rfl⟩ := h
        rfl
      · intro h
        have h' := Option.some.inj h
        rw [Prod.mk.injEq] at h'
        obtain ⟨rfl, h''⟩ := h'
        rw [Prod.mk.injEq] at h''
        obtain ⟨rfl, _⟩ := h''
        rfl

theorem scanFiles_fold_committed (entries : List String) :
    ∀ (st : Nat × List SegmentId × List String) (x : SegmentId),
    (x ∈ (entries.foldl scanFilesStep st).2.1 ↔
      x ∈ st.2.1 ∨ ∃ e ∈ entries, decode_segment_path e = some (x.1, x.2, true)) := by
  induction entries with
  | nil => intro st x; simp
  | cons e rest ih =>
    intro st x
    rw [List.foldl_cons, ih, scanFilesStep_committed]
    constructor
    · rintro ((hx | hde) | hex)
      · exact Or.inl hx
      · exact Or.inr ⟨e, List.mem_cons_self e rest, hde⟩
      · obtain ⟨e', he', hd'⟩ := hex
        exact Or.inr ⟨e', List.mem_cons_of_mem _ he', hd'⟩
    · rintro (hx | ⟨e', he', hd'⟩)
      · exact Or.inl (Or.inl hx)
      · rcases List.mem_cons.mp he' with rfl | he''
        · exact Or.inl (Or.inr hd')
        · exact Or.inr ⟨e', he'', hd'⟩

theorem scanFiles_fold_max (entries : List String) :
    ∀ st : Nat × List SegmentId × List String,
    (entries.foldl scanFilesStep st).1 = max st.1 (maxSeenTxn entries) := by
  induction entries with
  | nil => intro st; simp [maxSeenTxn]
  | cons e rest ih =>
    intro st
    rw [List.foldl_cons, ih]
    cases hd : decode_segment_path e with
    | none =>
      have hstep : scanFilesStep st e = st := by simp [scanFilesStep, hd]
      rw [hstep]
      have hm : maxSeenTxn (e :: rest) = maxSeenTxn rest := by
        simp [maxSeenTxn, List.filterMap_cons, hd]
      rw [hm]
    | some r =>
      obtain ⟨t, sn, c⟩ := r
      rw [scanFilesStep_fst st e t sn c hd]
      have hfm : (e :: rest).filterMap
          (fun e => (decode_segment_path e).map (fun r => r.1)) =
          t :: rest.filterMap
            (fun e => (decode_segment_path e).map (fun r => r.1)) := by
        simp [List.filterMap_cons, hd]
      have hm : maxSeenTxn (e :: rest) = max (max 0 t) (maxSeenTxn rest) := by
        unfold maxSeenTxn
        rw [hfm, List.foldl_cons, foldl_max_init]
      rw [hm, max_eq_right (Nat.zero_le t), max_assoc]

/-- C9: on a directory whose entries are all recognisable segment file
names, `open` deletes exactly the `.tmp` entries, records exactly the
visible entries' ids in the committed set, and sets
`next_transaction_id` to one more than the maximum transaction id
appearing in any entry, the deleted `.tmp` ones included. -/
theorem claim_C9 (schema : Schema) (path : String) (entries : List String)
    (_h : ∀ e ∈ entries, (decode_segment_path e).isSome) :
    ((Database.open schema path entries).2 =
      entries.filter (fun e =>
        match decode_segment_path e with
        | some (_, _, false) => true
        | _ => false)) ∧
    (∀ x : SegmentId,
      x ∈ (Database.open schema path entries).1.committed_segments ↔
        ∃ e ∈ entries, decode_segment_path e = some (x.1, x.2, true)) ∧
    (Database.open schema path entries).1.next_transaction_id =
      maxSeenTxn entries + 1 := by
  refine ⟨?_, ?_, ?_⟩
  · show (entries.foldl scanFilesStep (0, [], [])).2.2 = _
    rw [scanFiles_fold_deleted]
    rfl
  · intro x
    show x ∈ (entries.foldl scanFilesStep (0, [], [])).2.1 ↔ _
    rw [scanFiles_fold_committed]
    simp
  · show (entries.foldl scanFilesStep (0, [], [])).1 + 1 = _
    rw [scanFiles_fold_max]
    simp

/-- Witness for C9 on a directory holding only `.tmp` files
(`0x99 = 153`): both files are deleted and `next_transaction_id` becomes
`0x9A = 154`. -/
theorem claim_C9_witness :
    (∀ e ∈ (["00000099.00000000.tmp", "00000003.00000001.tmp"] : List String),
      (decode_segment_path e).isSome) ∧
    (Database.open ⟨[], []⟩ "/db"
        ["00000099.00000000.tmp", "00000003.00000001.tmp"]).2 =
      ["00000099.00000000.tmp", "00000003.00000001.tmp"] ∧
    (Database.open ⟨[], []⟩ "/db"
        ["00000099.00000000.tmp",
          "00000003.00000001.tmp"]).1.next_transaction_id = 154 := by
  have h := claim_C9 ⟨[], []⟩ "/db"
    ["00000099.00000000.tmp", "00000003.00000001.tmp"] (by decide)
  exact ⟨by decide, h.1.trans (by decide), h.2.2.trans (by decide)⟩

/-! ## Claim C8: `commit` renames in reverse order and registers segments -/
theorem commitSegsRev_ids (dbpath : String) :
    ∀ (segs : List Segment) (db : Database),
    (commitSegsRev dbpath db segs).2.map Segment.id = segs.map Segment.id := by
  intro segs
  induction segs with
  | nil => intro db; rfl
  | cons s rest ih =>
    intro db
    show Segment.id (s.make_visible dbpath) ::
        (commitSegsRev dbpath _ rest).2.map Segment.id = _
    rw [ih]
    rfl

theorem commitSegsRev_committed_mono (dbpath : String) :
    ∀ (segs : List Segment) (db : Database) (x : SegmentId),
    x ∈ db.committed_segments →
    x ∈ (commitSegsRev dbpath db segs).1.committed_segments := by
  intro segs
  induction segs with
  | nil => intro db x hx; exact hx
  | cons s rest ih =>
    intro db x hx
    exact ih _ x ((mem_insertSeg _ _ _).mpr (Or.inl hx))

theorem commitSegsRev_post (dbpath : String) :
    ∀ (segs : List Segment) (db : Database) (s : Segment),
    s ∈ (commitSegsRev dbpath db segs).2 →
    s.path = get_segment_path dbpath s.id true ∧
    s.id ∈ (commitSegsRev dbpath db segs).1.committed_segments := by
  intro segs
  induction segs with
  | nil => intro db s hs; exact absurd hs (by simp [commitSegsRev])
  | cons s0 rest ih =>
    intro db s hs
    have hmem : s = s0.make_visible dbpath ∨
        s ∈ (commitSegsRev dbpath
          (db.add_committed_segment (s0.make_visible dbpath).id) rest).2 := by
      simpa [commitSegsRev] using hs
    rcases hmem with rfl | hrest
    · constructor
      · rfl
      · exact commitSegsRev_committed_mono dbpath rest _ _
          ((mem_insertSeg _ _ _).mpr (Or.inr rfl))
    · exact ih _ s hrest

theorem flush_db_path (t : Transaction) : t.flush.db.path = t.db.path := by
  unfold Transaction.flush
  split
  · rfl
  · unfold Transaction.get_transaction_id
    cases t.id <;> rfl

/-- C8: `commit()` is `flush()` followed by `commit_segments()`; the
segments are renamed in reverse list order (so, the staged list being in
segment-number order, segment 0 goes last), and after it returns every
segment of the transaction is registered in the database's committed set
and carries its visible file name. -/
theorem claim_C8 (t : Transaction) :
    (t.commit = t.flush.commit_segments) ∧
    (t.commit.2.map Segment.id =
      (t.flush.uncommitted_segments.map Segment.id).reverse) ∧
    (∀ s ∈ t.commit.2,
      s.id ∈ t.commit.1.db.committed_segments ∧
      s.path = get_segment_path t.db.path s.id true) := by
  refine ⟨rfl, ?_, ?_⟩
  · show (commitSegsRev t.flush.db.path t.flush.db
        t.flush.uncommitted_segments.reverse).2.map Segment.id = _
    rw [commitSegsRev_ids, List.map_reverse]
  · intro s hs
    have hs' : s ∈ (commitSegsRev t.flush.db.path t.flush.db
        t.flush.uncommitted_segments.reverse).2 := hs
    have hpost := commitSegsRev_post t.flush.db.path
      t.flush.uncommitted_segments.reverse t.flush.db s hs'
    refine ⟨hpost.2, ?_⟩
    rw [hpost.1, flush_db_path]

theorem beBytes_length (k n : Nat) : (beBytes k n).length = k := by
  induction k generalizing n with
  | zero => rfl
  | succ m ih => simp [beBytes, ih]

theorem beBytes_foldl (k : Nat) :
    ∀ n : Nat, (beBytes k n).foldl (fun a b => a * 256 + b) 0 = n % 256 ^ k := by
  induction k with
  | zero => intro n; simp [beBytes, Nat.mod_one]
  | succ m ih =>
    intro n
    rw [beBytes, List.foldl_append, ih (n / 256)]
    show (n / 256 % 256 ^ m) * 256 + n % 256 = n % 256 ^ (m + 1)
    rw [pow_succ, mul_comm (256 ^ m) 256, Nat.mod_mul]
    omega

theorem readBE_beBytes (k n : Nat) (rest : List Nat) :
    readBE k (beBytes k n ++ rest) = some (n % 256 ^ k, rest) := by
  unfold readBE
  rw [if_pos (by simp [beBytes_length])]
  rw [List.take_left' (beBytes_length k n), List.drop_left' (beBytes_length k n),
    beBytes_foldl]

theorem readVals_enc (dim : List Datum) :
    ∀ rest : List Nat, (∀ v ∈ dim, v < 2 ^ 64) →
    readVals dim.length ((dim.map (fun v => beBytes 8 v)).flatten ++ rest) =
      some (dim, rest) := by
  induction dim with
  | nil => intro rest _; rfl
  | cons v vs ih =>
    intro rest hb
    have hv : v % 256 ^ 8 = v := Nat.mod_eq_of_lt (hb v (by simp))
    show readVals (vs.length + 1) _ = _
    simp only [List.map_cons, List.flatten_cons, List.append_assoc, readVals,
      readBE_beBytes, hv, ih rest (fun x hx => hb x (by simp [hx]))]

theorem readDims_enc (dims : List (List Datum)) :
    ∀ rest : List Nat,
    (∀ dim ∈ dims, dim.length < 2 ^ 32 ∧ ∀ v ∈ dim, v < 2 ^ 64) →
    readDims dims.length
        ((dims.map (fun dim => beBytes 4 dim.length ++
          (dim.map (fun v => beBytes 8 v)).flatten)).flatten ++ rest) =
      some (dims, rest) := by
  induction dims with
  | nil => intro rest _; rfl
  | cons dim ds ih =>
    intro rest hb
    have hlen : dim.length % 256 ^ 4 = dim.length :=
      Nat.mod_eq_of_lt (hb dim (by simp)).1
    show readDims (ds.length + 1) _ = _
    simp only [List.map_cons, List.flatten_cons, List.append_assoc, readDims,
      readBE_beBytes, hlen, readVals_enc dim _ (hb dim (by simp)).2,
      ih rest (fun d hd => hb d (by simp [hd]))]

theorem readValues_enc (vals : List (Option Datum)) :
    ∀ rest : List Nat, (∀ x, some x ∈ vals → x < 2 ^ 64) →
    readValues (vals.map (fun v => match v with | some _ => 0 | none => 1))
        ((vals.filterMap (fun v => v.map (fun x => beBytes 8 x))).flatten ++
          rest) =
      some (vals, rest) := by
  induction vals with
  | nil => intro rest _; rfl
  | cons v vs ih =>
    intro rest hb
    cases v with
    | none =>
      simp [readValues, List.filterMap_cons,
        ih rest (fun x hx => hb x (by simp [hx]))]
    | some x =>
      have hx : x % 256 ^ 8 = x := Nat.mod_eq_of_lt (hb x (by simp))
      simp [readValues, List.filterMap_cons, List.flatten_cons,
        List.append_assoc, readBE_beBytes, hx,
        ih rest (fun y hy => hb y (by simp [hy]))]
      exact hb x (by simp)

/-- C7: decoding the encoded byte stream of a block gives back the same
axes and the same values vector, absent slots included.  The hypotheses
are the representation invariants of the Rust `Block`: the axis count
fits a `u16`, axis lengths fit a `u32`, the `usize` datums fit 64 bits,
and the values vector is dense (`|V| = ∏|Aᵢ|`, the invariant `add_row`
maintains — claim C5). -/
theorem claim_C7 (b : Block)
    (hD : b.dimension_values.length < 2 ^ 16)
    (hdims : ∀ dim ∈ b.dimension_values,
      dim.length < 2 ^ 32 ∧ ∀ v ∈ dim, v < 2 ^ 64)
    (hvals : ∀ x : Datum, some x ∈ b.values → x < 2 ^ 64)
    (hdensity : b.values.length = (b.dimension_values.map List.length).prod) :
    Block.load (Block.save b) = some (b, []) := by
  have hD2 : b.dimension_values.length % 256 ^ 2 = b.dimension_values.length :=
    Nat.mod_eq_of_lt hD
  have hmlen : (b.values.map
      (fun v : Option Datum => match v with | some _ => 0 | none => 1)).length =
      (b.dimension_values.map List.length).prod := by
    rw [List.length_map, hdensity]
  have ht : ((b.values.map
      (fun v : Option Datum => match v with | some _ => 0 | none => 1)) ++
      (b.values.filterMap
        (fun v : Option Datum => v.map (fun x => beBytes 8 x))).flatten).take
        ((b.dimension_values.map List.length).prod) =
      b.values.map (fun v : Option Datum => match v with | some _ => 0 | none => 1) :=
    List.take_left' hmlen
  have hd2 : ((b.values.map
      (fun v : Option Datum => match v with | some _ => 0 | none => 1)) ++
      (b.values.filterMap
        (fun v : Option Datum => v.map (fun x => beBytes 8 x))).flatten).drop
        ((b.dimension_values.map List.length).prod) =
      (b.values.filterMap (fun v => v.map (fun x => beBytes 8 x))).flatten :=
    List.drop_left' hmlen
  have hrv := readValues_enc b.values [] hvals
  rw [List.append_nil] at hrv
  unfold Block.load Block.save
  simp only [List.append_assoc, readBE_beBytes, hD2,
    readDims_enc b.dimension_values _ hdims]
  rw [if_pos (by rw [List.length_append, hmlen]; omega)]
  rw [ht, hd2, hrv]

/-- Witness for C7 at a concrete block (built by two `add_row`s, with
absent slots): the bounds hold and the stream decodes to the block. -/
theorem claim_C7_witness :
    (c2block.dimension_values.length < 2 ^ 16 ∧
      (∀ dim ∈ c2block.dimension_values,
        dim.length < 2 ^ 32 ∧ ∀ v ∈ dim, v < 2 ^ 64) ∧
      (∀ x : Datum, some x ∈ c2block.values → x < 2 ^ 64) ∧
      c2block.values.length =
        (c2block.dimension_values.map List.length).prod) ∧
    Block.load (Block.save c2block) = some (c2block, []) := by
  have hv : ∀ x : Datum, some x ∈ c2block.values → x < 2 ^ 64 := by
    intro x hx
    have hcv : c2block.values = [none, some 99, some 101, none] := rfl
    rw [hcv] at hx
    simp at hx
    rcases hx with rfl | rfl <;> norm_num
  exact ⟨⟨by decide, by decide, hv, by decide⟩,
    claim_C7 c2block (by decide) (by decide) hv (by decide)⟩

theorem resizeValues_length (v : List (Option Datum)) (n : Nat) :
    (Block.resizeValues v n).length = n := by
  simp [Block.resizeValues, List.length_take]
  omega

theorem copyWithin_length (v : List (Option Datum)) (src dst num : Nat) :
    (Block.copyWithin v src dst num).length = v.length := by
  simp [Block.copyWithin]

theorem copy_elements_length (v : List (Option Datum)) (a c n : Nat) :
    (Block.copy_elements v a c n).length = v.length := by
  simp [Block.copy_elements, copyWithin_length]

theorem clear_elements_length (v : List (Option Datum)) (a c : Nat) :
    (Block.clear_elements v a c).length = v.length := by
  simp [Block.clear_elements]

theorem foldl_values_length {α : Type}
    (f : List (Option Datum) → α → List (Option Datum))
    (hf : ∀ v a, (f v a).length = v.length) :
    ∀ (l : List α) (v : List (Option Datum)),
      (l.foldl f v).length = v.length := by
  intro l
  induction l with
  | nil => intro v; rfl
  | cons x xs ih => intro v; rw [List.foldl_cons, ih, hf]

theorem insertSliceValues_length (params : Block.SliceInsertionParams)
    (v : List (Option Datum)) :
    (Block.insertSliceValues params v).length = params.new_size := by
  unfold Block.insertSliceValues
  rw [foldl_values_length _ (fun v i => by
    rw [clear_elements_length, copy_elements_length])]
  exact resizeValues_length v params.new_size

theorem new_size_spec (b : Block) (dim_no idx : Nat) :
    (b.get_slice_insertion_params dim_no idx).new_size =
      ((b.dimension_values.map List.length).take dim_no).prod *
        ((b.dimension_values.map List.length).getD dim_no 0 + 1) *
        ((b.dimension_values.map List.length).drop (dim_no + 1)).prod := by
  simp [Block.get_slice_insertion_params]

theorem prod_set_decomp (l : List Nat) (i x : Nat) (h : i < l.length) :
    (l.set i x).prod = (l.take i).prod * x * (l.drop (i + 1)).prod := by
  rw [List.prod_set, if_pos h]

theorem sizes_getD (b : Block) (dim_no : Nat)
    (h : dim_no < b.dimension_values.length) :
    (b.dimension_values.map List.length).getD dim_no 0 =
      (b.dimension_values.getD dim_no []).length := by
  rw [List.getD_eq_getElem _ _ (by simpa using h), List.getElem_map,
    List.getD_eq_getElem _ _ h]

theorem searchIdx_le (dv : List Datum) (v : Datum) :
    Block.searchIdx dv v ≤ dv.length :=
  (List.takeWhile_sublist _).length_le

theorem insertIdx_searchIdx (v : Datum) :
    ∀ l : List Datum,
    l.insertIdx (Block.searchIdx l v) v =
      l.takeWhile (· < v) ++ v :: l.dropWhile (· < v) := by
  intro l
  induction l with
  | nil => rfl
  | cons a t ih =>
    by_cases ha : a < v
    · have hta : (a :: t).takeWhile (· < v) = a :: t.takeWhile (· < v) := by
        rw [List.takeWhile_cons, if_pos (by simpa using ha)]
      have hda : (a :: t).dropWhile (· < v) = t.dropWhile (· < v) := by
        rw [List.dropWhile_cons, if_pos (by simpa using ha)]
      have hsi : Block.searchIdx (a :: t) v = Block.searchIdx t v + 1 := by
        unfold Block.searchIdx
        rw [hta, List.length_cons]
      rw [hsi, hta, hda, List.insertIdx_succ_cons, ih, List.cons_append]
    · have hta : (a :: t).takeWhile (· < v) = [] := by
        rw [List.takeWhile_cons, if_neg (by simpa using ha)]
      have hda : (a :: t).dropWhile (· < v) = a :: t := by
        rw [List.dropWhile_cons, if_neg (by simpa using ha)]
      have hsi : Block.searchIdx (a :: t) v = 0 := by
        unfold Block.searchIdx
        rw [hta]
        rfl
      rw [hsi, hta, hda]
      rfl

theorem dropWhile_gt (v : Datum) :
    ∀ l : List Datum, l.Sorted (· < ·) → v ∉ l →
    ∀ x ∈ l.dropWhile (· < v), v < x := by
  intro l
  induction l with
  | nil => simp
  | cons a t ih =>
    intro hs hv
    rw [List.dropWhile_cons]
    by_cases ha : a < v
    · rw [if_pos (by simpa using ha)]
      exact ih hs.of_cons (fun h => hv (List.mem_cons_of_mem a h))
    · rw [if_neg (by simpa using ha)]
      intro x hx
      rcases List.mem_cons.mp hx with rfl | hxt
      · have hne : x ≠ v := fun h => hv (h ▸ List.mem_cons_self x t)
        exact lt_of_le_of_ne (le_of_not_lt ha) (Ne.symm hne)
      · have hax : a < x := (List.pairwise_cons.mp hs).1 x hxt
        exact lt_of_le_of_lt (le_of_not_lt ha) hax

theorem takeWhile_lt (v : Datum) (l : List Datum) :
    ∀ x ∈ l.takeWhile (· < v), x < v := by
  intro x hx
  simpa using List.mem_takeWhile_imp hx

theorem sorted_insert_new (l : List Datum) (v : Datum)
    (hs : l.Sorted (· < ·)) (hv : v ∉ l) :
    (l.insertIdx (Block.searchIdx l v) v).Sorted (· < ·) := by
  rw [insertIdx_searchIdx]
  rw [List.Sorted, List.pairwise_append]
  refine ⟨List.Pairwise.sublist (List.takeWhile_sublist _) hs, ?_, ?_⟩
  · rw [List.pairwise_cons]
    exact ⟨dropWhile_gt v l hs hv,
      List.Pairwise.sublist (List.dropWhile_sublist _) hs⟩
  · intro a ha b hb
    have halt : a < v := takeWhile_lt v l a ha
    rcases List.mem_cons.mp hb with rfl | hbd
    · exact halt
    · exact lt_trans halt (dropWhile_gt v l hs hv b hbd)

theorem add_dimension_value_wf (b : Block) (dim_no : Nat) (v : Datum)
    (hdim : dim_no < b.dimension_values.length) (hwf : blockWf b) :
    blockWf (b.add_dimension_value dim_no v).1 ∧
    (b.add_dimension_value dim_no v).1.dimension_values.length =
      b.dimension_values.length := by
  unfold Block.add_dimension_value
  by_cases hmem : v ∈ b.dimension_values.getD dim_no []
  · rw [if_pos hmem]
    exact ⟨hwf, rfl⟩
  · rw [if_neg hmem]
    have hsorted : (b.dimension_values.getD dim_no []).Sorted (· < ·) := by
      apply hwf.2
      rw [List.getD_eq_getElem _ _ hdim]
      exact List.getElem_mem hdim
    have hlen : ((b.dimension_values.getD dim_no []).insertIdx
        (Block.searchIdx (b.dimension_values.getD dim_no []) v) v).length =
        (b.dimension_values.getD dim_no []).length + 1 :=
      List.length_insertIdx _ _ (searchIdx_le _ _)
    refine ⟨⟨?_, ?_⟩, by simp⟩
    · show (Block.insertSliceValues _ b.values).length = _
      rw [insertSliceValues_length, new_size_spec, sizes_getD b dim_no hdim]
      rw [List.map_set, hlen, prod_set_decomp _ _ _ (by simpa using hdim)]
    · intro a ha
      rcases List.mem_or_eq_of_mem_set ha with hold | hnew
      · exact hwf.2 a hold
      · rw [hnew]
        exact sorted_insert_new _ v hsorted hmem

theorem foldl_inv {α β : Type} (P : β → Prop) (f : β → α → β) :
    ∀ (l : List α) (init : β), P init →
      (∀ b a, a ∈ l → P b → P (f b a)) → P (l.foldl f init) := by
  intro l
  induction l with
  | nil => intro init h0 _; exact h0
  | cons x xs ih =>
    intro init h0 hstep
    exact ih _ (hstep init x (List.mem_cons_self x xs) h0)
      (fun b a ha => hstep b a (List.mem_cons_of_mem x ha))

theorem addRowDims_wf (b : Block) (vals : List Datum) (hwf : blockWf b) :
    blockWf (Block.addRowDims b vals).1 ∧
    (Block.addRowDims b vals).1.dimension_values.length =
      b.dimension_values.length := by
  unfold Block.addRowDims
  exact foldl_inv
    (fun p : Block × List Nat =>
      blockWf p.1 ∧
        p.1.dimension_values.length = b.dimension_values.length)
    _ (List.range b.dimension_values.length) (b, []) ⟨hwf, rfl⟩
    (fun p dim_no hmem hp => by
      have hdim : dim_no < p.1.dimension_values.length := by
        rw [hp.2]; exact List.mem_range.mp hmem
      have h := add_dimension_value_wf p.1 dim_no (vals.getD dim_no 0) hdim hp.1
      exact ⟨h.1, h.2.trans hp.2⟩)

theorem add_row_wf (b : Block) (vals : List Datum) (hwf : blockWf b) :
    blockWf (Block.add_row b vals) := by
  unfold Block.add_row
  apply foldl_inv (fun bb : Block => blockWf bb) _ _ _
    (addRowDims_wf b vals hwf).1
  intro bb a _ hbb
  exact ⟨by simpa [List.length_set] using hbb.1, hbb.2⟩

/-- Counterexample to C5 as stated: for `D = 0`, `Block::new(0)` itself
(the empty sequence of `add_row`s) violates the density invariant, since
`|V| = 0` but the empty product `∏|Aᵢ| = 1`. -/
theorem claim_C5_counterexample :
    ¬ blockWf (([] : List (List Datum)).foldl Block.add_row (Block.new 0)) := by
  intro h
  have h1 := h.1
  simp [Block.new] at h1

/-- C5 (corrected: `D ≥ 1`): for every `D ≥ 1` and every finite sequence
of `add_row` calls applied to `Block::new(D)`, the resulting block is
dense — the values vector's length equals the product of the axis
lengths — and every dimension axis is strictly increasing.  (As stated
the claim also covers `D = 0`, where `Block::new(0)` itself violates
density: `|V| = 0` but the empty product is `1`.) -/
theorem claim_C5 (D : Nat) (hD : 1 ≤ D) (rows : List (List Datum)) :
    blockWf (rows.foldl Block.add_row (Block.new D)) := by
  apply foldl_inv blockWf
  · constructor
    · show (0 : Nat) = _
      rw [Block.new]
      simp only [List.map_replicate, List.prod_replicate]
      rw [List.length_nil, zero_pow (by omega : D ≠ 0)]
    · intro a ha
      rw [Block.new] at ha
      simp only [List.mem_replicate] at ha
      rw [ha.2]
      exact List.sorted_nil
  · intro b r _ hb
    exact add_row_wf b r hb

/-- Witness for C5: the invariant holds for the two-row block of the
repository's own scan test, built from `Block::new(2)`. -/
theorem claim_C5_witness :
    1 ≤ 2 ∧
    blockWf ([[7, 4, 99], [9, 0, 101]].foldl Block.add_row (Block.new 2)) :=
  ⟨by decide, claim_C5 2 (by decide) [[7, 4, 99], [9, 0, 101]]⟩

theorem lexCompare_eq_iff : ∀ a b : List Datum, lexCompare a b = .eq ↔ a = b := by
  intro a
  induction a with
  | nil =>
    intro b
    cases b with
    | nil => simp [lexCompare]
    | cons y ys => simp [lexCompare]
  | cons x xs ih =>
    intro b
    cases b with
    | nil => simp [lexCompare]
    | cons y ys =>
      cases hc : compare x y with
      | lt =>
        have hxy := Nat.compare_eq_lt.mp hc
        simp only [lexCompare, hc]
        constructor
        · intro h; exact absurd h (by simp)
        · intro h
          injection h with h1 h2
          exact absurd h1 (Nat.ne_of_lt hxy)
      | eq =>
        have hxy := Nat.compare_eq_eq.mp hc
        subst hxy
        simp only [lexCompare, hc]
        rw [ih ys]
        simp
      | gt =>
        have hxy := Nat.compare_eq_gt.mp hc
        simp only [lexCompare, hc]
        constructor
        · intro h; exact absurd h (by simp)
        · intro h
          injection h with h1 h2
          exact absurd h1 (Nat.ne_of_gt hxy)

theorem lexCompare_swap : ∀ a b : List Datum,
    lexCompare b a = (lexCompare a b).swap := by
  intro a
  induction a with
  | nil =>
    intro b
    cases b with
    | nil => rfl
    | cons y ys => rfl
  | cons x xs ih =>
    intro b
    cases b with
    | nil => rfl
    | cons y ys =>
      cases hc : compare x y with
      | lt =>
        have h1 : compare y x = .gt := Nat.compare_eq_gt.mpr (Nat.compare_eq_lt.mp hc)
        simp only [lexCompare, hc, h1]
        rfl
      | eq =>
        have hxy := Nat.compare_eq_eq.mp hc
        subst hxy
        simp [lexCompare, hc, ih]
      | gt =>
        have h1 : compare y x = .lt := Nat.compare_eq_lt.mpr (Nat.compare_eq_gt.mp hc)
        simp only [lexCompare, hc, h1]
        rfl

theorem lexCompare_trans_lt : ∀ a b c : List Datum,
    lexCompare a b = .lt → lexCompare b c = .lt → lexCompare a c = .lt := by
  intro a
  induction a with
  | nil =>
    intro b c hab hbc
    cases c with
    | nil =>
      cases b with
      | nil => exact hab
      | cons y ys => simp [lexCompare] at hbc
    | cons z zs => rfl
  | cons x xs ih =>
    intro b c hab hbc
    cases b with
    | nil => simp [lexCompare] at hab
    | cons y ys =>
      cases c with
      | nil => simp [lexCompare] at hbc
      | cons z zs =>
        cases hxy : compare x y with
        | gt => simp [lexCompare, hxy] at hab
        | lt =>
          cases hyz : compare y z with
          | gt => simp [lexCompare, hyz] at hbc
          | lt =>
            have hxz : compare x z = .lt :=
              Nat.compare_eq_lt.mpr
                (lt_trans (Nat.compare_eq_lt.mp hxy) (Nat.compare_eq_lt.mp hyz))
            simp [lexCompare, hxz]
          | eq =>
            have h1 := Nat.compare_eq_eq.mp hyz
            subst h1
            simp [lexCompare, hxy]
        | eq =>
          have h1 := Nat.compare_eq_eq.mp hxy
          subst h1
          cases hyz : compare x z with
          | gt => simp [lexCompare, hyz] at hbc
          | lt => simp [lexCompare, hyz]
          | eq =>
            have h2 := Nat.compare_eq_eq.mp hyz
            subst h2
            simp only [lexCompare, hyz] at hab hbc ⊢
            exact ih ys zs hab hbc

theorem cp_take (D : Nat) : ∀ a b : List Datum,
    compare_points D a b = lexCompare (a.take D) (b.take D) := by
  induction D with
  | zero => intro a b; rfl
  | succ d ih =>
    intro a b
    cases a with
    | nil =>
      cases b with
      | nil => rfl
      | cons y ys => rfl
    | cons x xs =>
      cases b with
      | nil => rfl
      | cons y ys =>
        cases hc : compare x y with
        | lt => simp [compare_points, lexCompare, hc]
        | eq => simp [compare_points, lexCompare, hc, ih]
        | gt => simp [compare_points, lexCompare, hc]

theorem cp_swap (D : Nat) (a b : List Datum) :
    compare_points D b a = (compare_points D a b).swap := by
  rw [cp_take, cp_take, lexCompare_swap]

theorem cp_refl (D : Nat) (a : List Datum) :
    compare_points D a a = .eq := by
  rw [cp_take, lexCompare_eq_iff]

theorem cp_eq_iff (D : Nat) (a b : List Datum) :
    compare_points D a b = .eq ↔ a.take D = b.take D := by
  rw [cp_take, lexCompare_eq_iff]

theorem cp_ne_gt_iff (D : Nat) (a b : List Datum) :
    compare_points D a b ≠ .gt ↔
      compare_points D a b = .lt ∨ compare_points D a b = .eq := by
  cases h : compare_points D a b <;> simp

theorem cp_trans_lt (D : Nat) (a b c : List Datum)
    (hab : compare_points D a b = .lt) (hbc : compare_points D b c = .lt) :
    compare_points D a c = .lt := by
  rw [cp_take] at hab hbc ⊢
  exact lexCompare_trans_lt _ _ _ hab hbc

theorem cp_eq_congr_left (D : Nat) (a b c : List Datum)
    (hab : compare_points D a b = .eq) :
    compare_points D a c = compare_points D b c := by
  rw [cp_take, cp_take, (cp_eq_iff D a b).mp hab]

theorem cp_eq_congr_right (D : Nat) (a b c : List Datum)
    (hab : compare_points D a b = .eq) :
    compare_points D c a = compare_points D c b := by
  rw [cp_take, cp_take, (cp_eq_iff D a b).mp hab]

theorem cp_trans_le_lt (D : Nat) (a b c : List Datum)
    (hab : compare_points D a b ≠ .gt) (hbc : compare_points D b c = .lt) :
    compare_points D a c = .lt := by
  rcases (cp_ne_gt_iff D a b).mp hab with h | h
  · exact cp_trans_lt D a b c h hbc
  · rw [cp_eq_congr_left D a b c h]
    exact hbc

theorem cp_trans_lt_le (D : Nat) (a b c : List Datum)
    (hab : compare_points D a b = .lt) (hbc : compare_points D b c ≠ .gt) :
    compare_points D a c = .lt := by
  rcases (cp_ne_gt_iff D b c).mp hbc with h | h
  · exact cp_trans_lt D a b c hab h
  · rw [← cp_eq_congr_right D b c a h]
    exact hab

theorem cp_trans_le (D : Nat) (a b c : List Datum)
    (hab : compare_points D a b ≠ .gt) (hbc : compare_points D b c ≠ .gt) :
    compare_points D a c ≠ .gt := by
  rcases (cp_ne_gt_iff D b c).mp hbc with h | h
  · rw [cp_trans_le_lt D a b c hab h]
    simp
  · rw [← cp_eq_congr_right D b c a h]
    exact hab

theorem cp_isGT_iff (D : Nat) (a b : List Datum) :
    (compare_points D a b).isGT = true ↔ compare_points D b a = .lt := by
  rw [cp_swap D b a]
  cases compare_points D b a <;> decide

theorem lexCompare_isGT_take : ∀ a c : List Datum,
    (lexCompare a c).isGT = (lexCompare a (c.take a.length)).isGT := by
  intro a
  induction a with
  | nil =>
    intro c
    cases c with
    | nil => rfl
    | cons z zs => rfl
  | cons x xs ih =>
    intro c
    cases c with
    | nil => rfl
    | cons z zs =>
      cases hc : compare x z with
      | lt => simp [lexCompare, hc]
      | eq =>
        simp only [lexCompare, hc, List.length_cons, List.take_succ_cons]
        exact ih zs
      | gt => simp [lexCompare, hc]

theorem cp_isGT_width (D : Nat) (a b : List Datum) (h : a.length ≤ D) :
    (compare_points a.length a b).isGT = (compare_points D a b).isGT := by
  rw [cp_take, cp_take, List.take_of_length_le (le_refl a.length),
    List.take_of_length_le h, lexCompare_isGT_take a (b.take a.length),
    lexCompare_isGT_take a (b.take D), List.take_take, List.take_take]
  rw [Nat.min_self, Nat.min_eq_left h]

theorem cp_append (D : Nat) (a b u v : List Datum) (ha : D ≤ a.length)
    (hb : D ≤ b.length) :
    compare_points D (a ++ u) (b ++ v) = compare_points D a b := by
  rw [cp_take, cp_take, List.take_append_of_le_length ha,
    List.take_append_of_le_length hb, ← cp_take]

theorem getD_set_self (l : List Nat) (i v : Nat) (h : i < l.length) :
    (l.set i v).getD i 0 = v := by
  rw [List.getD_eq_getElem _ _ (by simpa using h)]
  exact List.getElem_set_self _

theorem getD_set_ne (l : List Nat) (i j v : Nat) (h : i ≠ j) :
    (l.set i v).getD j 0 = l.getD j 0 := by
  by_cases hj : j < l.length
  · rw [List.getD_eq_getElem _ _ (by simpa using hj),
      List.getD_eq_getElem _ _ hj]
    exact List.getElem_set_ne h _
  · rw [List.getD_eq_default _ _ (by simp; omega),
      List.getD_eq_default _ _ (by omega)]

theorem cp_lt_of_firstdiff :
    ∀ (p D : Nat) (a b : List Datum), p < D → p < a.length → p < b.length →
      (∀ j, j < p → a.getD j 0 = b.getD j 0) → a.getD p 0 < b.getD p 0 →
      compare_points D a b = .lt := by
  intro p
  induction p with
  | zero =>
    intro D a b hD ha hb _ hlt
    cases D with
    | zero => omega
    | succ d =>
      cases a with
      | nil => simp at ha
      | cons x xs =>
        cases b with
        | nil => simp at hb
        | cons y ys =>
          have hc : compare x y = .lt := Nat.compare_eq_lt.mpr (by simpa using hlt)
          simp [compare_points, hc]
  | succ q ih =>
    intro D a b hD ha hb hagree hlt
    cases D with
    | zero => omega
    | succ d =>
      cases a with
      | nil => simp at ha
      | cons x xs =>
        cases b with
        | nil => simp at hb
        | cons y ys =>
          have hxy : x = y := by simpa using hagree 0 (Nat.succ_pos q)
          subst hxy
          have hc : compare x x = .eq := Nat.compare_eq_eq.mpr rfl
          simp only [compare_points, hc]
          exact ih d xs ys (by omega) (by simpa using ha) (by simpa using hb)
            (fun j hj => by simpa using hagree (j + 1) (by omega))
            (by simpa using hlt)

theorem cp_firstdiff_of_lt :
    ∀ (D : Nat) (a b : List Datum), a.length = b.length →
      compare_points D a b = .lt →
      ∃ p, p < D ∧ p < a.length ∧
        (∀ j, j < p → a.getD j 0 = b.getD j 0) ∧ a.getD p 0 < b.getD p 0 := by
  intro D
  induction D with
  | zero =>
    intro a b _ h
    exact absurd h (by simp [compare_points])
  | succ d ih =>
    intro a b hlen h
    cases a with
    | nil =>
      cases b with
      | nil => exact absurd h (by simp [compare_points])
      | cons y ys => simp at hlen
    | cons x xs =>
      cases b with
      | nil => simp at hlen
      | cons y ys =>
        cases hc : compare x y with
        | lt =>
          refine ⟨0, by omega, by simp, by omega, ?_⟩
          simpa using Nat.compare_eq_lt.mp hc
        | gt =>
          simp only [compare_points, hc] at h
          exact absurd h (by simp)
        | eq =>
          have hxy := Nat.compare_eq_eq.mp hc
          subst hxy
          simp only [compare_points, hc] at h
          obtain ⟨p, hp1, hp2, hp3, hp4⟩ := ih xs ys (by simpa using hlen) h
          refine ⟨p + 1, by omega, by simpa using hp2, ?_, by simpa using hp4⟩
          intro j hj
          cases j with
          | zero => simp
          | succ j' =>
            simpa using hp3 j' (by omega)

theorem incrAux_length (sizes : List Nat) :
    ∀ (q : Nat) (idx : List Nat), (incrAux sizes idx q).length = idx.length := by
  intro q
  induction q with
  | zero => intro idx; simp [incrAux]
  | succ q ih =>
    intro idx
    rw [incrAux]
    by_cases hc :
        (idx.set (q + 1) (idx.getD (q + 1) 0 + 1)).getD (q + 1) 0 ≥
          sizes.getD (q + 1) 0
    · rw [if_pos hc, ih]
      simp
    · rw [if_neg hc]
      simp

theorem incrAux_increases (sizes : List Nat) :
    ∀ (q : Nat) (idx : List Nat), q < idx.length →
      ∃ p, p ≤ q ∧
        (∀ j, j < p → (incrAux sizes idx q).getD j 0 = idx.getD j 0) ∧
        (incrAux sizes idx q).getD p 0 = idx.getD p 0 + 1 := by
  intro q
  induction q with
  | zero =>
    intro idx hq
    refine ⟨0, le_refl _, fun j hj => absurd hj (by omega), ?_⟩
    rw [incrAux]
    exact getD_set_self idx 0 _ hq
  | succ q ih =>
    intro idx hq
    rw [incrAux]
    by_cases hc :
        (idx.set (q + 1) (idx.getD (q + 1) 0 + 1)).getD (q + 1) 0 ≥
          sizes.getD (q + 1) 0
    · rw [if_pos hc]
      obtain ⟨p, hp1, hp2, hp3⟩ :=
        ih ((idx.set (q + 1) (idx.getD (q + 1) 0 + 1)).set (q + 1) 0)
          (by simp; omega)
      refine ⟨p, by omega, ?_, ?_⟩
      · intro j hj
        rw [hp2 j hj, getD_set_ne _ _ _ _ (by omega), getD_set_ne _ _ _ _ (by omega)]
      · rw [hp3, getD_set_ne _ _ _ _ (by omega), getD_set_ne _ _ _ _ (by omega)]
    · rw [if_neg hc]
      refine ⟨q + 1, le_refl _, ?_, ?_⟩
      · intro j hj
        rw [getD_set_ne _ _ _ _ (by omega)]
      · rw [getD_set_self _ _ _ hq]

theorem incrAux_inrange (sizes : List Nat)
    (hpos : ∀ i, i < sizes.length → 1 ≤ sizes.getD i 0)
    (hsz : sizes.length = D) :
    ∀ (q : Nat) (idx : List Nat), idx.length = D →
      (∀ i, 1 ≤ i → i < D → idx.getD i 0 < sizes.getD i 0) →
      ∀ i, 1 ≤ i → i < D → (incrAux sizes idx q).getD i 0 < sizes.getD i 0 := by
  intro q
  induction q with
  | zero =>
    intro idx hlen hin i hi1 hi2
    rw [incrAux, getD_set_ne _ _ _ _ (by omega)]
    exact hin i hi1 hi2
  | succ q ih =>
    intro idx hlen hin i hi1 hi2
    rw [incrAux]
    by_cases hc :
        (idx.set (q + 1) (idx.getD (q + 1) 0 + 1)).getD (q + 1) 0 ≥
          sizes.getD (q + 1) 0
    · rw [if_pos hc]
      refine ih _ (by simp [hlen]) ?_ i hi1 hi2
      intro i' hi'1 hi'2
      by_cases hii : i' = q + 1
      · subst hii
        rw [getD_set_self _ _ _ (by simp; omega)]
        exact hpos _ (by omega)
      · rw [getD_set_ne _ _ _ _ (fun h => hii h.symm),
          getD_set_ne _ _ _ _ (fun h => hii h.symm)]
        exact hin i' hi'1 hi'2
    · rw [if_neg hc]
      by_cases hii : i = q + 1
      · subst hii
        omega
      · rw [getD_set_ne _ _ _ _ (fun h => hii h.symm)]
        exact hin i hi1 hi2

theorem sizes_pos (b : Block) (hwf : blockWf b) (hv : b.values ≠ []) :
    ∀ i, i < (b.dimension_values.map List.length).length →
      1 ≤ (b.dimension_values.map List.length).getD i 0 := by
  intro i hi
  by_contra h
  have h0 : (b.dimension_values.map List.length).getD i 0 = 0 := by omega
  have hmem : (0 : Nat) ∈ b.dimension_values.map List.length := by
    rw [← h0, List.getD_eq_getElem _ _ hi]
    exact List.getElem_mem _
  have hz := List.prod_eq_zero hmem
  have hlen := hwf.1
  rw [hz] at hlen
  exact hv (List.eq_nil_of_length_eq_zero hlen)

theorem increment_block (it : BlockIter) :
    it.increment_indexes.block = it.block := rfl

theorem increment_length (it : BlockIter) :
    it.increment_indexes.indexes.length = it.indexes.length :=
  incrAux_length _ _ _

theorem increment_lt (D : Nat) (it : BlockIter) (hlen : it.indexes.length = D)
    (hD : 1 ≤ D) :
    compare_points D it.indexes it.increment_indexes.indexes = .lt := by
  obtain ⟨p, hp1, hp2, hp3⟩ :=
    incrAux_increases (it.block.dimension_values.map List.length)
      (it.indexes.length - 1) it.indexes (by omega)
  refine cp_lt_of_firstdiff p D it.indexes it.increment_indexes.indexes
    (by omega) (by omega) ?_ ?_ ?_
  · show p < (incrAux _ it.indexes (it.indexes.length - 1)).length
    rw [incrAux_length]
    omega
  · intro j hj
    exact (hp2 j hj).symm
  · show it.indexes.getD p 0 <
      (incrAux _ it.indexes (it.indexes.length - 1)).getD p 0
    omega

theorem increment_le (D : Nat) (it : BlockIter) (hlen : it.indexes.length = D) :
    compare_points D it.indexes it.increment_indexes.indexes ≠ .gt := by
  cases Nat.eq_zero_or_pos D with
  | inl h =>
    subst h
    simp [compare_points]
  | inr h =>
    rw [increment_lt D it hlen h]
    simp

theorem wfIter_increment (D : Nat) (it : BlockIter) (hwf : wfIter D it)
    (hv : it.block.values ≠ []) : wfIter D it.increment_indexes := by
  obtain ⟨h1, h2, h3, h4⟩ := hwf
  refine ⟨h1, h2, ?_, Or.inr ?_⟩
  · rw [increment_length, h3]
  · rcases h4 with h4 | h4
    · exact absurd h4 hv
    · show ∀ i, 1 ≤ i → i < D →
        (incrAux (it.block.dimension_values.map List.length) it.indexes
          (it.indexes.length - 1)).getD i 0 <
          (it.block.dimension_values.map List.length).getD i 0
      exact incrAux_inrange _ (sizes_pos it.block h1 hv) (by simp [h2]) _
        it.indexes h3 h4

theorem coordsAt_length (b : Block) (t : List Nat) :
    (coordsAt b t).length = min b.dimension_values.length t.length := by
  simp [coordsAt]

theorem coordsAt_getD (b : Block) (t : List Nat) (j : Nat)
    (h1 : j < b.dimension_values.length) (h2 : j < t.length) :
    (coordsAt b t).getD j 0 =
      (b.dimension_values.getD j []).getD (t.getD j 0) 0 := by
  rw [coordsAt,
    List.getD_eq_getElem _ _ (by rw [List.length_zipWith]; exact lt_min h1 h2),
    List.getElem_zipWith, List.getD_eq_getElem b.dimension_values [] h1,
    List.getD_eq_getElem t 0 h2]

theorem sorted_getD_lt (l : List Datum) (hs : List.Sorted (· < ·) l) (i j : Nat)
    (hij : i < j) (hj : j < l.length) : l.getD i 0 < l.getD j 0 := by
  rw [List.getD_eq_getElem _ _ (by omega), List.getD_eq_getElem _ _ hj]
  exact List.Sorted.rel_get_of_lt hs (by simpa using hij)

theorem coordsAt_lt (D : Nat) (b : Block) (hwf : blockWf b)
    (hD : b.dimension_values.length = D) (t1 t2 : List Nat)
    (h1 : t1.length = D) (h2 : t2.length = D)
    (hr2 : fullInRange b t2)
    (hlt : compare_points D t1 t2 = .lt) :
    compare_points D (coordsAt b t1) (coordsAt b t2) = .lt := by
  obtain ⟨p, hp1, hp2, hp3, hp4⟩ := cp_firstdiff_of_lt D t1 t2 (by omega) hlt
  refine cp_lt_of_firstdiff p D _ _ hp1 ?_ ?_ ?_ ?_
  · rw [coordsAt_length]
    omega
  · rw [coordsAt_length]
    omega
  · intro j hj
    rw [coordsAt_getD _ _ _ (by omega) (by omega),
      coordsAt_getD _ _ _ (by omega) (by omega), hp3 j hj]
  · rw [coordsAt_getD _ _ _ (by omega) (by omega),
      coordsAt_getD _ _ _ (by omega) (by omega)]
    refine sorted_getD_lt _ ?_ _ _ hp4 ?_
    · apply hwf.2
      rw [List.getD_eq_getElem _ _ (by omega)]
      exact List.getElem_mem _
    · have hpin := hr2 p (by omega)
      rw [sizes_getD b p (by omega)] at hpin
      exact hpin

theorem zero_tuple_le : ∀ t : List Nat,
    t = List.replicate t.length 0 ∨
      compare_points t.length (List.replicate t.length 0) t = .lt := by
  intro t
  induction t with
  | nil => left; rfl
  | cons x xs ih =>
    by_cases hx : x = 0
    · subst hx
      rcases ih with h | h
      · left
        rw [List.length_cons, List.replicate_succ, ← h]
      · right
        rw [List.length_cons, List.replicate_succ]
        have hc : compare (0 : Nat) 0 = .eq := Nat.compare_eq_eq.mpr rfl
        simp only [compare_points, hc]
        exact h
    · right
      rw [List.length_cons, List.replicate_succ]
      have hc : compare (0 : Nat) x = .lt := Nat.compare_eq_lt.mpr (by omega)
      simp only [compare_points, hc]

theorem nextAux_emit (D : Nat) :
    ∀ (fuel : Nat) (it : BlockIter) (row : List Datum) (it' : BlockIter),
      wfIter D it → blockIterNextAux fuel it = some (row, it') →
      ∃ tE v, row = coordsAt it.block tE ++ [v] ∧ tE.length = D ∧
        fullInRange it.block tE ∧
        compare_points D it.indexes tE ≠ .gt ∧
        it'.block = it.block ∧
        compare_points D tE it'.indexes = .lt ∧ wfIter D it' := by
  intro fuel
  induction fuel with
  | zero =>
    intro it row it' _ h
    exact absurd h (by simp [blockIterNextAux])
  | succ fuel ih =>
    intro it row it' hwf h
    rw [blockIterNextAux] at h
    by_cases hg :
        it.indexes.getD 0 0 ≥ (it.block.dimension_values.getD 0 []).length
    · rw [if_pos hg] at h
      exact absurd h (by simp)
    · rw [if_neg hg] at h
      obtain ⟨h1, h2, h3, h4⟩ := hwf
      have hD : 1 ≤ D := by
        by_contra hD0
        have hnil : it.block.dimension_values.getD 0 [] = [] :=
          List.getD_eq_default _ _ (by omega)
        rw [hnil] at hg
        simp at hg
      cases hget : it.block.values.get? it.value_index with
      | none =>
        rw [hget] at h
        exact absurd h (by simp)
      | some ov =>
        have hv : it.block.values ≠ [] := by
          intro hnil
          rw [hnil] at hget
          simp at hget
        cases ov with
        | none =>
          rw [hget] at h
          obtain ⟨tE, v, he1, he2, he3, he4, he5, he6, he7⟩ :=
            ih it.increment_indexes row it'
              (wfIter_increment D it ⟨h1, h2, h3, h4⟩ hv) h
          refine ⟨tE, v, he1, he2, he3, ?_, he5, he6, he7⟩
          exact cp_trans_le D _ _ _ (increment_le D it h3) he4
        | some v =>
          rw [hget] at h
          simp only [Option.some.injEq, Prod.mk.injEq] at h
          obtain ⟨hrow, hit'⟩ := h
          subst hit'
          refine ⟨it.indexes, v, ?_, h3, ?_, ?_, rfl, ?_, ?_⟩
          · rw [← hrow]
            rfl
          · intro i hi
            cases Nat.eq_zero_or_pos i with
            | inl h0 =>
              subst h0
              rw [sizes_getD it.block 0 (by omega)]
              omega
            | inr hipos =>
              rcases h4 with h4 | h4
              · exact absurd h4 hv
              · exact h4 i hipos (by omega)
          · rw [cp_refl]
            simp
          · exact increment_lt D it h3 hD
          · exact wfIter_increment D it ⟨h1, h2, h3, h4⟩ hv

theorem nextAux_order (D fuel : Nat) (it : BlockIter) (row : List Datum)
    (it' : BlockIter) (hwf : wfIter D it)
    (hn : blockIterNextAux fuel it = some (row, it')) :
    wfIter D it' ∧ row.length = D + 1 ∧
      ∀ g r2 it2, blockIterNextAux g it' = some (r2, it2) →
        compare_points D row r2 = .lt := by
  obtain ⟨tE, v, he1, he2, he3, he4, he5, he6, he7⟩ :=
    nextAux_emit D fuel it row it' hwf hn
  refine ⟨he7, ?_, ?_⟩
  · rw [he1, List.length_append, coordsAt_length, hwf.2.1, he2]
    simp
  · intro g r2 it2 h2n
    obtain ⟨tF, w, hf1, hf2, hf3, hf4, hf5, hf6, hf7⟩ :=
      nextAux_emit D g it' r2 it2 he7 h2n
    have htEtF : compare_points D tE tF = .lt := cp_trans_lt_le D _ _ _ he6 hf4
    have hc : compare_points D (coordsAt it.block tE)
        (coordsAt it.block tF) = .lt :=
      coordsAt_lt D it.block hwf.1 hwf.2.1 tE tF he2 hf2 (he5 ▸ hf3) htEtF
    rw [he1, hf1, he5,
      cp_append D _ _ _ _ (by rw [coordsAt_length, hwf.2.1, he2]; simp)
        (by rw [coordsAt_length, hwf.2.1, hf2]; simp)]
    exact hc

theorem wfIter_init (D : Nat) (b : Block) (hwf : blockWf b)
    (hD : b.dimension_values.length = D) : wfIter D (Block.iter b) := by
  refine ⟨hwf, hD, by simp [Block.iter, hD], ?_⟩
  by_cases hv : b.values = []
  · exact Or.inl hv
  · refine Or.inr ?_
    intro i hi1 hi2
    show (List.replicate b.dimension_values.length 0).getD i 0 <
      (b.dimension_values.map List.length).getD i 0
    rw [List.getD_eq_getElem _ _ (by simp; omega), List.getElem_replicate]
    have := sizes_pos b hwf hv i (by simp; omega)
    omega

theorem zipWith_replicate_right {α β γ : Type} (f : α → β → γ) (c : β) :
    ∀ l : List α,
      List.zipWith f l (List.replicate l.length c) = l.map (fun x => f x c) := by
  intro l
  induction l with
  | nil => rfl
  | cons x xs ih =>
    simp only [List.length_cons, List.replicate_succ, List.zipWith_cons_cons,
      List.map_cons, ih]

theorem headD_eq_getD (l : List Datum) : l.headD 0 = l.getD 0 0 := by
  cases l <;> rfl

theorem start_point_coords (b : Block) (st : List Datum)
    (hst : b.get_start_point = some st) :
    st = coordsAt b (List.replicate b.dimension_values.length 0) := by
  rw [Block.get_start_point] at hst
  by_cases ha : b.dimension_values.any List.isEmpty
  · rw [if_pos ha] at hst
    exact absurd hst (by simp)
  · rw [if_neg ha] at hst
    simp only [Option.some.injEq] at hst
    subst hst
    rw [coordsAt, zipWith_replicate_right]
    refine List.map_congr_left ?_
    intro a _
    exact headD_eq_getD a

theorem start_point_length (b : Block) (st : List Datum)
    (hst : b.get_start_point = some st) :
    st.length = b.dimension_values.length := by
  rw [start_point_coords b st hst, coordsAt_length]
  simp

theorem iter_first_ge_start (D : Nat) (b : Block) (hwf : blockWf b)
    (hD : b.dimension_values.length = D) (fuel : Nat) (row : List Datum)
    (it' : BlockIter)
    (hn : blockIterNextAux fuel (Block.iter b) = some (row, it'))
    (st : List Datum) (hst : b.get_start_point = some st) :
    compare_points D st row ≠ .gt := by
  obtain ⟨tE, v, he1, he2, he3, he4, he5, he6, he7⟩ :=
    nextAux_emit D fuel (Block.iter b) row it' (wfIter_init D b hwf hD) hn
  have hstc : st = coordsAt b (List.replicate D 0) := by
    rw [start_point_coords b st hst, hD]
  have hstlen : st.length = D := by rw [start_point_length b st hst, hD]
  have he1' : row = coordsAt b tE ++ [v] := he1
  rcases zero_tuple_le tE with hz | hz
  · have htE : tE = List.replicate D 0 := by
      rw [← he2]
      exact hz
    rw [he1', hstc, htE]
    have h0 := cp_append D (coordsAt b (List.replicate D 0))
      (coordsAt b (List.replicate D 0)) [] [v]
      (by rw [coordsAt_length, hD]; simp)
      (by rw [coordsAt_length, hD]; simp)
    rw [List.append_nil] at h0
    rw [h0, cp_refl]
    simp
  · rw [he2] at hz
    have hc : compare_points D (coordsAt b (List.replicate D 0))
        (coordsAt b tE) = .lt :=
      coordsAt_lt D b hwf hD _ tE (by simp) he2 he3 hz
    rw [he1', hstc]
    have h0 := cp_append D (coordsAt b (List.replicate D 0))
      (coordsAt b tE) [] [v]
      (by rw [coordsAt_length, hD]; simp)
      (by rw [coordsAt_length, hD, he2]; simp)
    rw [List.append_nil] at h0
    rw [h0, hc]
    simp

theorem isGT_iff (o : Ordering) : o.isGT = true ↔ o = .gt := by
  cases o <;> decide

theorem popMin_min (D : Nat) :
    ∀ (q : List QueuedItem) (top : QueuedItem) (rest : List QueuedItem),
      (∀ i ∈ q, i.start_point.length ≤ D) →
      popMin q = some (top, rest) →
      ∀ y ∈ q, compare_points D top.start_point y.start_point ≠ .gt := by
  intro q
  induction q with
  | nil =>
    intro top rest _ h
    simp [popMin] at h
  | cons x xs ih =>
    intro top rest hlen h
    simp only [popMin] at h
    cases hx : popMin xs with
    | none =>
      rw [hx] at h
      have hnil := Scan.popMin_none hx
      subst hnil
      simp only [Option.some.injEq, Prod.mk.injEq] at h
      obtain ⟨rfl, rfl⟩ := h
      intro y hy
      rcases List.mem_cons.mp hy with rfl | hmem
      · rw [cp_refl]
        simp
      · simp at hmem
    | some p =>
      rw [hx] at h
      obtain ⟨m, rest'⟩ := p
      have hxm := ih m rest' (fun i hi => hlen i (List.mem_cons_of_mem x hi)) hx
      by_cases hc :
          (compare_points x.start_point.length x.start_point m.start_point).isGT
      · simp only [if_pos hc, Option.some.injEq, Prod.mk.injEq] at h
        obtain ⟨rfl, rfl⟩ := h
        intro y hy
        rcases List.mem_cons.mp hy with rfl | hmem
        · rw [cp_isGT_width D _ _ (hlen y (List.mem_cons_self y xs))] at hc
          rw [(cp_isGT_iff D _ _).mp hc]
          simp
        · exact hxm y hmem
      · simp only [if_neg hc, Option.some.injEq, Prod.mk.injEq] at h
        obtain ⟨rfl, rfl⟩ := h
        intro y hy
        rcases List.mem_cons.mp hy with rfl | hmem
        · rw [cp_refl]
          simp
        · rw [cp_isGT_width D _ _ (hlen x (List.mem_cons_self x xs))] at hc
          have hle : compare_points D x.start_point m.start_point ≠ .gt := by
            intro hg
            exact hc ((isGT_iff _).mpr hg)
          rcases List.mem_cons.mp ((Scan.popMin_perm hx).mem_iff.mp hmem)
            with rfl | hmem'
          · exact hle
          · exact cp_trans_le D _ _ _ hle
              (hxm y ((Scan.popMin_perm hx).symm.mem_iff.mp
                (List.mem_cons_of_mem m hmem')))

theorem cp_full (D : Nat) (a b : List Datum) (ha : a.length ≤ D)
    (hb : b.length ≤ D) : compare_points D a b = lexCompare a b := by
  rw [cp_take, List.take_of_length_le ha, List.take_of_length_le hb]

theorem lex_refl (a : List Datum) : lexCompare a a = .eq :=
  (lexCompare_eq_iff a a).mpr rfl

theorem lex_le_of_not_lt (a x : List Datum) (h : ¬ lexCompare x a = .lt) :
    lexCompare a x ≠ .gt := by
  rw [lexCompare_swap]
  cases hc : lexCompare x a with
  | lt => exact absurd hc h
  | eq => simp [Ordering.swap]
  | gt => simp [Ordering.swap]

theorem lex_trans_le (a b c : List Datum) (hab : lexCompare a b ≠ .gt)
    (hbc : lexCompare b c ≠ .gt) : lexCompare a c ≠ .gt := by
  have hD : a.length ≤ a.length + b.length + c.length := by omega
  have hD2 : b.length ≤ a.length + b.length + c.length := by omega
  have hD3 : c.length ≤ a.length + b.length + c.length := by omega
  rw [← cp_full _ _ _ hD hD3]
  rw [← cp_full _ _ _ hD hD2] at hab
  rw [← cp_full _ _ _ hD2 hD3] at hbc
  exact cp_trans_le _ _ _ _ hab hbc

theorem listMin_fold_spec :
    ∀ (l : List (List Datum)) (acc : Option (List Datum)) (m : List Datum),
      l.foldl
        (fun acc p =>
          match acc with
          | none => some p
          | some mm => if lexCompare p mm = .lt then some p else some mm)
        acc = some m →
      (acc = some m ∨ m ∈ l) ∧ (∀ x ∈ l, lexCompare m x ≠ .gt) ∧
        (∀ a, acc = some a → lexCompare m a ≠ .gt) := by
  intro l
  induction l with
  | nil =>
    intro acc m h
    refine ⟨Or.inl h, by simp, ?_⟩
    intro a ha
    have hm : acc = some m := h
    rw [ha] at hm
    simp only [Option.some.injEq] at hm
    subst hm
    rw [lex_refl]
    simp
  | cons x xs ih =>
    intro acc m h
    rw [List.foldl_cons] at h
    cases acc with
    | none =>
      obtain ⟨hm, hx, hacc⟩ := ih (some x) m h
      have hmx : lexCompare m x ≠ .gt := hacc x rfl
      refine ⟨?_, ?_, ?_⟩
      · rcases hm with hm | hm
        · simp only [Option.some.injEq] at hm
          exact Or.inr (hm ▸ List.mem_cons_self x xs)
        · exact Or.inr (List.mem_cons_of_mem x hm)
      · intro y hy
        rcases List.mem_cons.mp hy with rfl | hmem
        · exact hmx
        · exact hx y hmem
      · intro a ha
        exact absurd ha (by simp)
    | some a =>
      have h' : xs.foldl
          (fun acc p =>
            match acc with
            | none => some p
            | some mm => if lexCompare p mm = .lt then some p else some mm)
          (if lexCompare x a = .lt then some x else some a) = some m := h
      by_cases hc : lexCompare x a = .lt
      · rw [if_pos hc] at h'
        obtain ⟨hm, hx, hacc⟩ := ih (some x) m h'
        have hmx : lexCompare m x ≠ .gt := hacc x rfl
        refine ⟨?_, ?_, ?_⟩
        · rcases hm with hm | hm
          · simp only [Option.some.injEq] at hm
            exact Or.inr (hm ▸ List.mem_cons_self x xs)
          · exact Or.inr (List.mem_cons_of_mem x hm)
        · intro y hy
          rcases List.mem_cons.mp hy with rfl | hmem
          · exact hmx
          · exact hx y hmem
        · intro a2 ha2
          simp only [Option.some.injEq] at ha2
          subst ha2
          have hxa : lexCompare x a ≠ .gt := by
            rw [hc]
            simp
          exact lex_trans_le m x a hmx hxa
      · rw [if_neg hc] at h'
        obtain ⟨hm, hx, hacc⟩ := ih (some a) m h'
        have hma : lexCompare m a ≠ .gt := hacc a rfl
        have hax : lexCompare a x ≠ .gt := lex_le_of_not_lt a x hc
        refine ⟨?_, ?_, ?_⟩
        · rcases hm with hm | hm
          · exact Or.inl hm
          · exact Or.inr (List.mem_cons_of_mem x hm)
        · intro y hy
          rcases List.mem_cons.mp hy with rfl | hmem
          · exact lex_trans_le m a y hma hax
          · exact hx y hmem
        · exact hacc

theorem listMin_spec (l : List (List Datum)) (m : List Datum)
    (h : Scan.listMin l = some m) :
    m ∈ l ∧ ∀ x ∈ l, lexCompare m x ≠ .gt := by
  obtain ⟨hm, hx, _⟩ := listMin_fold_spec l none m h
  refine ⟨?_, hx⟩
  rcases hm with hm | hm
  · exact absurd hm (by simp)
  · exact hm

theorem segmentStartPoint_spec (seg : Segment) (sp : List Datum)
    (h : Scan.segmentStartPoint seg = some sp) :
    (∃ b ∈ seg.cached_blocks, b.get_start_point = some sp) ∧
      ∀ b ∈ seg.cached_blocks, ∀ st, b.get_start_point = some st →
        lexCompare sp st ≠ .gt := by
  rw [Scan.segmentStartPoint] at h
  obtain ⟨hmem, hmin⟩ := listMin_spec _ _ h
  refine ⟨?_, ?_⟩
  · obtain ⟨b, hb, hbs⟩ := List.mem_filterMap.mp hmem
    exact ⟨b, hb, hbs⟩
  · intro b hb st hst
    exact hmin st (List.mem_filterMap.mpr ⟨b, hb, hst⟩)

theorem nextAux_values_ne :
    ∀ (fuel : Nat) (it : BlockIter) (r : List Datum) (it2 : BlockIter),
      blockIterNextAux fuel it = some (r, it2) → it.block.values ≠ [] := by
  intro fuel
  induction fuel with
  | zero =>
    intro it r it2 h
    exact absurd h (by simp [blockIterNextAux])
  | succ fuel ih =>
    intro it r it2 h
    rw [blockIterNextAux] at h
    by_cases hg :
        it.indexes.getD 0 0 ≥ (it.block.dimension_values.getD 0 []).length
    · rw [if_pos hg] at h
      exact absurd h (by simp)
    · rw [if_neg hg] at h
      cases hget : it.block.values.get? it.value_index with
      | none =>
        rw [hget] at h
        exact absurd h (by simp)
      | some ov =>
        intro hnil
        rw [hnil] at hget
        simp at hget

theorem get_start_point_isSome (b : Block) (hwf : blockWf b)
    (hv : b.values ≠ []) : ∃ st, b.get_start_point = some st := by
  rw [Block.get_start_point]
  by_cases ha : b.dimension_values.any List.isEmpty
  · exfalso
    obtain ⟨dv, hdv, hdve⟩ := List.any_eq_true.mp ha
    rw [List.isEmpty_iff] at hdve
    have hmem : (0 : Nat) ∈ b.dimension_values.map List.length :=
      List.mem_map.mpr ⟨dv, hdv, by rw [hdve]; rfl⟩
    have hz := List.prod_eq_zero hmem
    have hlen := hwf.1
    rw [hz] at hlen
    exact hv (List.eq_nil_of_length_eq_zero hlen)
  · rw [if_neg ha]
    exact ⟨_, rfl⟩

theorem newLive_wf (D : Nat) (b : Block) (hwf : blockWf b)
    (hD : b.dimension_values.length = D) (fuel : Nat) (row : List Datum)
    (it' : BlockIter)
    (hn : blockIterNextAux fuel (Block.iter b) = some (row, it'))
    (tx : TransactionId) :
    wfLive D ⟨it', some row, tx⟩ := by
  obtain ⟨h1, h2, h3⟩ :=
    nextAux_order D fuel _ _ _ (wfIter_init D b hwf hD) hn
  refine ⟨h1, ?_⟩
  intro c hc
  simp only [Option.some.injEq] at hc
  subst hc
  exact ⟨h2, fun g r it2 hgr => h3 g r it2 hgr⟩

theorem newLive_ge (D : Nat) (b : Block) (hwf : blockWf b)
    (hD : b.dimension_values.length = D) (sp cur : List Datum)
    (hlb : startLB D sp b) (hcur : compare_points D cur sp ≠ .gt)
    (fuel : Nat) (row : List Datum) (it' : BlockIter)
    (hn : blockIterNextAux fuel (Block.iter b) = some (row, it')) :
    compare_points D cur row ≠ .gt := by
  have hv : b.values ≠ [] := nextAux_values_ne fuel _ _ _ hn
  obtain ⟨st, hst⟩ := get_start_point_isSome b hwf hv
  have h1 : compare_points D sp st ≠ .gt := hlb st hst
  have h2 : compare_points D st row ≠ .gt :=
    iter_first_ge_start D b hwf hD fuel row it' hn st hst
  exact cp_trans_le D _ _ _ hcur (cp_trans_le D _ _ _ h1 h2)

theorem add_segment_block_num_dims (s : Scan) (seg : Segment) (b : Block) :
    (s.add_segment_block seg b).num_dims = s.num_dims := by
  rw [Scan.add_segment_block]
  cases b.get_start_point <;> rfl

theorem add_segment_block_live (s : Scan) (seg : Segment) (b : Block) :
    (s.add_segment_block seg b).live = s.live := by
  rw [Scan.add_segment_block]
  cases b.get_start_point <;> rfl

theorem add_segment_block_queue (s : Scan) (seg : Segment) (b : Block) :
    ∀ i ∈ (s.add_segment_block seg b).queue, i ∈ s.queue ∨
      ∃ st, b.get_start_point = some st ∧
        i = ⟨st, .segmentBlock seg b⟩ := by
  rw [Scan.add_segment_block]
  cases hst : b.get_start_point with
  | none =>
    intro i hi
    exact Or.inl hi
  | some st =>
    intro i hi
    rcases List.mem_cons.mp hi with rfl | hmem
    · exact Or.inr ⟨st, rfl, rfl⟩
    · exact Or.inl hmem

theorem foldl_add_segment_block_props (D : Nat)
    (src : SegmentId → Option Segment) (cur sp : List Datum) (seg : Segment) :
    ∀ blocks : List Block,
      (∀ b ∈ blocks, blockWf b ∧ b.dimension_values.length = D) →
      (∀ b ∈ blocks, startLB D sp b) →
      compare_points D cur sp ≠ .gt →
      ∀ s : Scan, (∀ i ∈ s.queue, wfQItem src D i) →
        (∀ i ∈ s.queue, compare_points D cur i.start_point ≠ .gt) →
        (blocks.foldl (fun s b => s.add_segment_block seg b) s).num_dims =
            s.num_dims ∧
        (blocks.foldl (fun s b => s.add_segment_block seg b) s).source =
            s.source ∧
        (blocks.foldl (fun s b => s.add_segment_block seg b) s).live =
            s.live ∧
        (∀ i ∈ (blocks.foldl (fun s b => s.add_segment_block seg b) s).queue,
          wfQItem src D i) ∧
        (∀ i ∈ (blocks.foldl (fun s b => s.add_segment_block seg b) s).queue,
          compare_points D cur i.start_point ≠ .gt) := by
  intro blocks
  induction blocks with
  | nil =>
    intro _ _ _ s h1 h2
    exact ⟨rfl, rfl, rfl, h1, h2⟩
  | cons b bs ih =>
    intro hseg hlb hcur s h1 h2
    have hb := hseg b (List.mem_cons_self b bs)
    have hlbb := hlb b (List.mem_cons_self b bs)
    have hq' : ∀ i ∈ (s.add_segment_block seg b).queue, wfQItem src D i := by
      intro i hi
      rcases add_segment_block_queue s seg b i hi with hmem | ⟨st, hst, rfl⟩
      · exact h1 i hmem
      · refine ⟨?_, hb.1, hb.2, ?_⟩
        · show st.length ≤ D
          rw [start_point_length b st hst, hb.2]
        · intro st' hst'
          rw [hst] at hst'
          simp only [Option.some.injEq] at hst'
          subst hst'
          show compare_points D st st ≠ .gt
          rw [cp_refl]
          simp
    have hc' : ∀ i ∈ (s.add_segment_block seg b).queue,
        compare_points D cur i.start_point ≠ .gt := by
      intro i hi
      rcases add_segment_block_queue s seg b i hi with hmem | ⟨st, hst, rfl⟩
      · exact h2 i hmem
      · show compare_points D cur st ≠ .gt
        exact cp_trans_le D _ _ _ hcur (hlbb st hst)
    obtain ⟨e1, e2, e3, e4, e5⟩ :=
      ih (fun b' hb' => hseg b' (List.mem_cons_of_mem b hb'))
        (fun b' hb' => hlb b' (List.mem_cons_of_mem b hb'))
        hcur (s.add_segment_block seg b) hq' hc'
    rw [List.foldl_cons]
    refine ⟨?_, ?_, ?_, e4, e5⟩
    · rw [e1, add_segment_block_num_dims]
    · rw [e2, Scan.add_segment_block_source]
    · rw [e3, add_segment_block_live]

theorem processItem_props (D : Nat) (src : SegmentId → Option Segment)
    (cur : List Datum) (s : Scan) (item : QueuedItem)
    (hsrc : s.source = src) (hD : s.num_dims = D)
    (hwfi : wfQItem src D item)
    (hq : ∀ i ∈ s.queue, wfQItem src D i)
    (hl : ∀ li ∈ s.live, wfLive D li)
    (hqc : ∀ i ∈ s.queue, compare_points D cur i.start_point ≠ .gt)
    (hlc : ∀ li ∈ s.live, ∀ c, li.current = some c →
      compare_points D cur c ≠ .gt)
    (hic : compare_points D cur item.start_point ≠ .gt) :
    (Scan.processItem s item).source = src ∧ (Scan.processItem s item).num_dims = D ∧
    (∀ i ∈ (Scan.processItem s item).queue, wfQItem src D i) ∧
    (∀ li ∈ (Scan.processItem s item).live, wfLive D li) ∧
    (∀ i ∈ (Scan.processItem s item).queue,
      compare_points D cur i.start_point ≠ .gt) ∧
    (∀ li ∈ (Scan.processItem s item).live, ∀ c, li.current = some c →
      compare_points D cur c ≠ .gt) := by
  obtain ⟨sp, ty⟩ := item
  have hsp : sp.length ≤ D := hwfi.1
  have hic' : compare_points D cur sp ≠ .gt := hic
  cases ty with
  | segmentId sid =>
    have harm : ∀ seg, src sid = some seg →
        wfSeg D seg ∧ ∀ b ∈ seg.cached_blocks, startLB D sp b := hwfi.2
    cases hs : s.source sid with
    | none =>
      have heq : Scan.processItem s ⟨sp, .segmentId sid⟩ = s := by
        simp [Scan.processItem, hs]
      rw [heq]
      exact ⟨hsrc, hD, hq, hl, hqc, hlc⟩
    | some seg =>
      have hseg := harm seg (by rw [← hsrc]; exact hs)
      have heq : Scan.processItem s ⟨sp, .segmentId sid⟩ = s.add_segment seg := by
        simp [Scan.processItem, hs]
      rw [heq]
      cases hmsp : Scan.segmentStartPoint seg with
      | none =>
        have heq2 : s.add_segment seg = s := by
          rw [Scan.add_segment, hmsp]
        rw [heq2]
        exact ⟨hsrc, hD, hq, hl, hqc, hlc⟩
      | some msp =>
        have heq2 : s.add_segment seg =
            { s with queue := ⟨msp, .segment seg⟩ :: s.queue } := by
          rw [Scan.add_segment, hmsp]
        rw [heq2]
        obtain ⟨⟨b0, hb0, hb0s⟩, hmin⟩ := segmentStartPoint_spec seg msp hmsp
        have hmspD : msp.length = D := by
          rw [start_point_length b0 msp hb0s, (hseg.1 b0 hb0).2]
        refine ⟨hsrc, hD, ?_, hl, ?_, hlc⟩
        · intro i hi
          rcases List.mem_cons.mp hi with rfl | hmem
          · refine ⟨le_of_eq hmspD, hseg.1, ?_⟩
            intro b hb st' hst'
            have hst'D : st'.length = D := by
              rw [start_point_length b st' hst', (hseg.1 b hb).2]
            show compare_points D msp st' ≠ .gt
            rw [cp_full D msp st' (le_of_eq hmspD) (le_of_eq hst'D)]
            exact hmin b hb st' hst'
          · exact hq i hmem
        · intro i hi
          rcases List.mem_cons.mp hi with rfl | hmem
          · show compare_points D cur msp ≠ .gt
            exact cp_trans_le D _ _ _ hic' (hseg.2 b0 hb0 msp hb0s)
          · exact hqc i hmem
  | segment seg =>
    have harm : wfSeg D seg ∧ ∀ b ∈ seg.cached_blocks, startLB D sp b :=
      hwfi.2
    have heq : Scan.processItem s ⟨sp, .segment seg⟩ =
        seg.cached_blocks.foldl (fun s b => s.add_segment_block seg b) s := by
      simp [Scan.processItem]
    rw [heq]
    obtain ⟨e1, e2, e3, e4, e5⟩ :=
      foldl_add_segment_block_props D src cur sp seg seg.cached_blocks
        harm.1 harm.2 hic' s hq hqc
    refine ⟨?_, ?_, e4, ?_, e5, ?_⟩
    · rw [e2]
      exact hsrc
    · rw [e1]
      exact hD
    · rw [e3]
      exact hl
    · rw [e3]
      exact hlc
  | blockId bid =>
    have heq : Scan.processItem s ⟨sp, .blockId bid⟩ = s := by
      simp [Scan.processItem]
    rw [heq]
    exact ⟨hsrc, hD, hq, hl, hqc, hlc⟩
  | block b =>
    have harm : blockWf b ∧ b.dimension_values.length = D ∧ startLB D sp b :=
      hwfi.2
    cases hn : (Block.iter b).next with
    | none =>
      have heq : Scan.processItem s ⟨sp, .block b⟩ = s := by
        simp [Scan.processItem, hn]
      rw [heq]
      exact ⟨hsrc, hD, hq, hl, hqc, hlc⟩
    | some p =>
      obtain ⟨row, it'⟩ := p
      have heq : Scan.processItem s ⟨sp, .block b⟩ =
          { s with live := s.live ++ [⟨it', some row, s.this_txn_id⟩] } := by
        simp [Scan.processItem, hn]
      rw [heq]
      have hn' : blockIterNextAux (b.values.length + 1) (Block.iter b) =
          some (row, it') := hn
      refine ⟨hsrc, hD, hq, ?_, hqc, ?_⟩
      · intro li hli
        rcases List.mem_append.mp hli with hmem | hmem
        · exact hl li hmem
        · simp only [List.mem_singleton] at hmem
          subst hmem
          exact newLive_wf D b harm.1 harm.2.1 _ row it' hn' s.this_txn_id
      · intro li hli c hc
        rcases List.mem_append.mp hli with hmem | hmem
        · exact hlc li hmem c hc
        · simp only [List.mem_singleton] at hmem
          subst hmem
          simp only [Option.some.injEq] at hc
          subst hc
          exact newLive_ge D b harm.1 harm.2.1 sp cur harm.2.2 hic' _ row it'
            hn'
  | segmentBlock seg b =>
    have harm : blockWf b ∧ b.dimension_values.length = D ∧ startLB D sp b :=
      hwfi.2
    cases hn : (Block.iter b).next with
    | none =>
      have heq : Scan.processItem s ⟨sp, .segmentBlock seg b⟩ = s := by
        simp [Scan.processItem, hn]
      rw [heq]
      exact ⟨hsrc, hD, hq, hl, hqc, hlc⟩
    | some p =>
      obtain ⟨row, it'⟩ := p
      have heq : Scan.processItem s ⟨sp, .segmentBlock seg b⟩ =
          { s with live := s.live ++ [⟨it', some row, seg.id.1⟩] } := by
        simp [Scan.processItem, hn]
      rw [heq]
      have hn' : blockIterNextAux (b.values.length + 1) (Block.iter b) =
          some (row, it') := hn
      refine ⟨hsrc, hD, hq, ?_, hqc, ?_⟩
      · intro li hli
        rcases List.mem_append.mp hli with hmem | hmem
        · exact hl li hmem
        · simp only [List.mem_singleton] at hmem
          subst hmem
          exact newLive_wf D b harm.1 harm.2.1 _ row it' hn' seg.id.1
      · intro li hli c hc
        rcases List.mem_append.mp hli with hmem | hmem
        · exact hlc li hmem c hc
        · simp only [List.mem_singleton] at hmem
          subst hmem
          simp only [Option.some.injEq] at hc
          subst hc
          exact newLive_ge D b harm.1 harm.2.1 sp cur harm.2.2 hic' _ row it'
            hn'

theorem checkQueueAux_inv (D : Nat) (src : SegmentId → Option Segment)
    (cur : List Datum) :
    ∀ (fuel : Nat) (s : Scan),
      s.source = src → s.num_dims = D →
      Scan.queueWeight src s.queue ≤ fuel →
      (∀ i ∈ s.queue, wfQItem src D i) →
      (∀ li ∈ s.live, wfLive D li) →
      (∀ i ∈ s.queue, compare_points D cur i.start_point ≠ .gt) →
      (∀ li ∈ s.live, ∀ c, li.current = some c →
        compare_points D cur c ≠ .gt) →
      (Scan.checkQueueAux fuel s cur).source = src ∧
      (Scan.checkQueueAux fuel s cur).num_dims = D ∧
      (∀ i ∈ (Scan.checkQueueAux fuel s cur).queue, wfQItem src D i) ∧
      (∀ li ∈ (Scan.checkQueueAux fuel s cur).live, wfLive D li) ∧
      (∀ li ∈ (Scan.checkQueueAux fuel s cur).live, ∀ c, li.current = some c →
        compare_points D cur c ≠ .gt) ∧
      (∀ i ∈ (Scan.checkQueueAux fuel s cur).queue,
        compare_points D cur i.start_point = .lt) := by
  intro fuel
  induction fuel with
  | zero =>
    intro s hsrc hD hfuel hq hl hqc hlc
    have hnil : s.queue = [] :=
      Scan.queueWeight_nil_of_le_zero (by rw [hsrc]; exact hfuel)
    refine ⟨hsrc, hD, hq, hl, hlc, ?_⟩
    show ∀ i ∈ s.queue, compare_points D cur i.start_point = .lt
    rw [hnil]
    simp
  | succ fuel ih =>
    intro s hsrc hD hfuel hq hl hqc hlc
    cases hp : popMin s.queue with
    | none =>
      have hnil : s.queue = [] := Scan.popMin_none hp
      have heq : Scan.checkQueueAux (fuel + 1) s cur = s := by
        rw [Scan.checkQueueAux, hp]
      rw [heq]
      refine ⟨hsrc, hD, hq, hl, hlc, ?_⟩
      rw [hnil]
      simp
    | some p =>
      obtain ⟨item, rest⟩ := p
      have hitem : item ∈ s.queue :=
        (Scan.popMin_perm hp).symm.mem_iff.mp (List.mem_cons_self item rest)
      have hrest : ∀ i ∈ rest, i ∈ s.queue := fun i hi =>
        (Scan.popMin_perm hp).symm.mem_iff.mp (List.mem_cons_of_mem item hi)
      by_cases hg : (compare_points s.num_dims item.start_point cur).isGT
      · have heq : Scan.checkQueueAux (fuel + 1) s cur = s := by
          simp only [Scan.checkQueueAux, hp]
          rw [if_pos hg]
        rw [heq]
        refine ⟨hsrc, hD, hq, hl, hlc, ?_⟩
        rw [hD] at hg
        have hcuritem : compare_points D cur item.start_point = .lt :=
          (cp_isGT_iff D _ _).mp hg
        have hmin := popMin_min D s.queue item rest
          (fun i hi => (hq i hi).1) hp
        intro y hy
        exact cp_trans_lt_le D _ _ _ hcuritem (hmin y hy)
      · have heq : Scan.checkQueueAux (fuel + 1) s cur =
            Scan.checkQueueAux fuel
              (Scan.processItem { s with queue := rest } item) cur := by
          simp only [Scan.checkQueueAux, hp]
          rw [if_neg hg]
        rw [heq]
        subst hsrc
        obtain ⟨p1, p2, p3, p4, p5, p6⟩ :=
          processItem_props D s.source cur { s with queue := rest } item
            rfl hD (hq item hitem)
            (fun i hi => hq i (hrest i hi)) hl
            (fun i hi => hqc i (hrest i hi)) hlc
            (hqc item hitem)
        have hw1 : Scan.queueWeight s.source s.queue =
            Scan.itemWeight s.source item + Scan.queueWeight s.source rest :=
          Scan.popMin_queueWeight hp s.source
        have hw2 : Scan.queueWeight s.source
            (Scan.processItem { s with queue := rest } item).queue <
            Scan.itemWeight s.source item + Scan.queueWeight s.source rest :=
          Scan.processItem_weight { s with queue := rest } item
        exact ih (Scan.processItem { s with queue := rest } item)
          p1 p2 (by omega) p3 p4 p5 p6

theorem next_eq (s : Scan) :
    s.next =
      (match (cfFold s.num_dims s.live
          ((popMin s.queue).map (fun p => p.1.start_point), true)).1 with
       | none => (none, s)
       | some current_point =>
         let s2 := if (cfFold s.num_dims s.live
             ((popMin s.queue).map (fun p => p.1.start_point), true)).2
           then s.check_queue current_point else s
         let bl := blFold s2.num_dims current_point s2.live ([], 0, none)
         (bl.2.2.map (fun row => { txn_id := bl.2.1, values := row }),
           { s2 with live := bl.1.filter (fun l => l.current.isSome) })) := rfl

theorem isLT_iff (o : Ordering) : o.isLT = true ↔ o = .lt := by
  cases o <;> decide

theorem cp_not_lt_le (D : Nat) (a b : List Datum)
    (h : ¬ (compare_points D a b).isLT = true) :
    compare_points D b a ≠ .gt := by
  rw [cp_swap D a b]
  cases hc : compare_points D a b with
  | lt => exact absurd ((isLT_iff _).mpr hc) h
  | eq => simp [Ordering.swap]
  | gt => simp [Ordering.swap]

theorem cfFold_spec (D : Nat) :
    ∀ (live : List LiveItem) (init : Option (List Datum) × Bool)
      (m : List Datum), (cfFold D live init).1 = some m →
      (init.1 = some m ∨ ∃ li ∈ live, li.current = some m) ∧
      (∀ a, init.1 = some a → compare_points D m a ≠ .gt) ∧
      (∀ li ∈ live, ∀ c, li.current = some c →
        compare_points D m c ≠ .gt) ∧
      ((cfFold D live init).2 = true →
        init.2 = true ∧ (cfFold D live init).1 = init.1) ∧
      ((cfFold D live init).2 = false → init.2 = true →
        ∀ a, init.1 = some a → compare_points D m a = .lt) := by
  intro live
  induction live with
  | nil =>
    intro init m hm
    refine ⟨Or.inl hm, ?_, by simp, fun h => ⟨h, rfl⟩, ?_⟩
    · intro a ha
      have hm2 : init.1 = some m := hm
      rw [hm2] at ha
      simp only [Option.some.injEq] at ha
      subst ha
      rw [cp_refl]
      simp
    · intro hf ht
      have hf2 : init.2 = false := hf
      rw [hf2] at ht
      exact absurd ht (by simp)
  | cons li rest ih =>
    intro init m hm
    rw [cfFold, List.foldl_cons] at hm
    cases hcur : li.current with
    | none =>
      rw [hcur] at hm
      obtain ⟨i1, i2, i3, i4, i5⟩ := ih init m hm
      have hfold : cfFold D (li :: rest) init = cfFold D rest init := by
        rw [cfFold, List.foldl_cons, hcur]
        rfl
      refine ⟨?_, i2, ?_, ?_, ?_⟩
      · rcases i1 with h | ⟨li', hli', hc⟩
        · exact Or.inl h
        · exact Or.inr ⟨li', List.mem_cons_of_mem li hli', hc⟩
      · intro li' hli' c hc
        rcases List.mem_cons.mp hli' with rfl | hmem
        · rw [hcur] at hc
          exact absurd hc (by simp)
        · exact i3 li' hmem c hc
      · rw [hfold]
        exact i4
      · rw [hfold]
        exact i5
    | some c =>
      rw [hcur] at hm
      cases hinit : init.1 with
      | none =>
        have hstep : (match init.1 with
            | none => (some c, false)
            | some cur =>
              if (compare_points D c cur).isLT then (some c, false)
              else init) = ((some c, false) : Option (List Datum) × Bool) := by
          rw [hinit]
        rw [hstep] at hm
        obtain ⟨i1, i2, i3, i4, i5⟩ := ih (some c, false) m hm
        have hfold : cfFold D (li :: rest) init =
            cfFold D rest (some c, false) := by
          rw [cfFold, List.foldl_cons, hcur, hstep]
          rfl
        refine ⟨?_, ?_, ?_, ?_, ?_⟩
        · rcases i1 with h | ⟨li', hli', hc⟩
          · simp only [Option.some.injEq] at h
            exact Or.inr ⟨li, List.mem_cons_self li rest, by rw [hcur, h]⟩
          · exact Or.inr ⟨li', List.mem_cons_of_mem li hli', hc⟩
        · intro a ha
          exact absurd ha (by simp)
        · intro li' hli' c' hc'
          rcases List.mem_cons.mp hli' with rfl | hmem
          · rw [hcur] at hc'
            simp only [Option.some.injEq] at hc'
            subst hc'
            exact i2 c rfl
          · exact i3 li' hmem c' hc'
        · rw [hfold]
          intro ht
          exact absurd (i4 ht).1 (by simp)
        · intro _ _ a ha
          exact absurd ha (by simp)
      | some cur =>
        by_cases hlt : (compare_points D c cur).isLT
        · have hstep : (match init.1 with
              | none => (some c, false)
              | some cur =>
                if (compare_points D c cur).isLT then (some c, false)
                else init) = ((some c, false) : Option (List Datum) × Bool) := by
            rw [hinit]
            show (if (compare_points D c cur).isLT = true then
                ((some c, false) : Option (List Datum) × Bool) else init) =
              (some c, false)
            rw [if_pos hlt]
          rw [hstep] at hm
          obtain ⟨i1, i2, i3, i4, i5⟩ := ih (some c, false) m hm
          have hfold : cfFold D (li :: rest) init =
              cfFold D rest (some c, false) := by
            rw [cfFold, List.foldl_cons, hcur, hstep]
            rfl
          have hmcur : compare_points D m cur = .lt :=
            cp_trans_le_lt D _ _ _ (i2 c rfl) ((isLT_iff _).mp hlt)
          refine ⟨?_, ?_, ?_, ?_, ?_⟩
          · rcases i1 with h | ⟨li', hli', hc⟩
            · simp only [Option.some.injEq] at h
              exact Or.inr ⟨li, List.mem_cons_self li rest, by rw [hcur, h]⟩
            · exact Or.inr ⟨li', List.mem_cons_of_mem li hli', hc⟩
          · intro a ha
            simp only [Option.some.injEq] at ha
            subst ha
            rw [hmcur]
            simp
          · intro li' hli' c' hc'
            rcases List.mem_cons.mp hli' with rfl | hmem
            · rw [hcur] at hc'
              simp only [Option.some.injEq] at hc'
              subst hc'
              exact i2 c rfl
            · exact i3 li' hmem c' hc'
          · rw [hfold]
            intro ht
            exact absurd (i4 ht).1 (by simp)
          · intro _ _ a ha
            simp only [Option.some.injEq] at ha
            subst ha
            exact hmcur
        · have hstep : (match init.1 with
              | none => (some c, false)
              | some cur =>
                if (compare_points D c cur).isLT then (some c, false)
                else init) = init := by
            rw [hinit]
            show (if (compare_points D c cur).isLT = true then
                ((some c, false) : Option (List Datum) × Bool) else init) =
              init
            rw [if_neg hlt]
          rw [hstep] at hm
          obtain ⟨i1, i2, i3, i4, i5⟩ := ih init m hm
          rw [hinit] at i1 i2 i4 i5
          have hfold : cfFold D (li :: rest) init = cfFold D rest init := by
            rw [cfFold, List.foldl_cons, hcur, hstep]
            rfl
          refine ⟨?_, i2, ?_, ?_, ?_⟩
          · rcases i1 with h | ⟨li', hli', hc⟩
            · exact Or.inl h
            · exact Or.inr ⟨li', List.mem_cons_of_mem li hli', hc⟩
          · intro li' hli' c' hc'
            rcases List.mem_cons.mp hli' with rfl | hmem
            · rw [hcur] at hc'
              simp only [Option.some.injEq] at hc'
              subst hc'
              exact cp_trans_le D _ _ _ (i2 cur rfl) (cp_not_lt_le D _ _ hlt)
            · exact i3 li' hmem c' hc'
          · rw [hfold]
            exact i4
          · rw [hfold]
            exact i5

theorem blFold_cons (D : Nat) (current : List Datum) (li : LiveItem)
    (rest : List LiveItem)
    (init : List LiveItem × Nat × Option (List Datum)) :
    blFold D current (li :: rest) init =
      blFold D current rest (blStep D current init li) := rfl

theorem blStep_curNone (D : Nat) (cur : List Datum)
    (st : List LiveItem × Nat × Option (List Datum)) (item : LiveItem)
    (h : item.current = none) :
    blStep D cur st item = (st.1 ++ [item], st.2) := by
  rw [blStep, h]

theorem blStep_some (D : Nat) (cur : List Datum)
    (st : List LiveItem × Nat × Option (List Datum)) (item : LiveItem)
    (c : List Datum) (h : item.current = some c) :
    blStep D cur st item =
      (if compare_points D c cur = .eq then
        (let item' :=
          match item.iter.next with
          | none => { item with current := none }
          | some (row, it') => { item with current := some row, iter := it' }
        if item.txn_id > st.2.1 then (st.1 ++ [item'], item.txn_id, some c)
        else (st.1 ++ [item'], st.2))
      else (st.1 ++ [item], st.2)) := by
  rw [blStep, h]

theorem blFold_spec (D : Nat) (current : List Datum) :
    ∀ (live : List LiveItem)
      (init : List LiveItem × Nat × Option (List Datum)),
      (∀ li ∈ live, wfLive D li) →
      (∀ li ∈ live, ∀ c, li.current = some c →
        compare_points D current c ≠ .gt) →
      (∀ li ∈ init.1, wfLive D li) →
      (∀ li ∈ init.1, ∀ c, li.current = some c →
        compare_points D current c = .lt) →
      (∀ r, init.2.2 = some r →
        compare_points D r current = .eq ∧ r.length = D + 1) →
      (∀ li ∈ (blFold D current live init).1, wfLive D li) ∧
      (∀ li ∈ (blFold D current live init).1, ∀ c, li.current = some c →
        compare_points D current c = .lt) ∧
      (∀ r, (blFold D current live init).2.2 = some r →
        compare_points D r current = .eq ∧ r.length = D + 1) := by
  intro live
  induction live with
  | nil =>
    intro init _ _ h3 h4 h5
    exact ⟨h3, h4, h5⟩
  | cons li rest ih =>
    intro init hlw hlc h3 h4 h5
    have hliw := hlw li (List.mem_cons_self li rest)
    have hlic := hlc li (List.mem_cons_self li rest)
    have hlw' := fun l hl => hlw l (List.mem_cons_of_mem li hl)
    have hlc' := fun l hl => hlc l (List.mem_cons_of_mem li hl)
    rw [blFold_cons]
    cases hcur : li.current with
    | none =>
      rw [blStep_curNone D current init li hcur]
      refine ih _ hlw' hlc' ?_ ?_ h5
      · intro l hl
        rcases List.mem_append.mp hl with h | h
        · exact h3 l h
        · simp only [List.mem_singleton] at h
          subst h
          exact hliw
      · intro l hl c hc
        rcases List.mem_append.mp hl with h | h
        · exact h4 l h c hc
        · simp only [List.mem_singleton] at h
          subst h
          rw [hcur] at hc
          exact absurd hc (by simp)
    | some c =>
      by_cases heqc : compare_points D c current = .eq
      · have hstrict : ∀ (item' : LiveItem),
            wfLive D item' →
            (∀ c2, item'.current = some c2 →
              compare_points D current c2 = .lt) →
            ∀ (st2 : Nat × Option (List Datum)),
            (∀ r, st2.2 = some r →
              compare_points D r current = .eq ∧ r.length = D + 1) →
            (∀ l ∈ (blFold D current rest
                (init.1 ++ [item'], st2)).1, wfLive D l) ∧
            (∀ l ∈ (blFold D current rest
                (init.1 ++ [item'], st2)).1, ∀ c2, l.current = some c2 →
              compare_points D current c2 = .lt) ∧
            (∀ r, (blFold D current rest
                (init.1 ++ [item'], st2)).2.2 = some r →
              compare_points D r current = .eq ∧ r.length = D + 1) := by
          intro item' hw' hs' st2 hb'
          refine ih _ hlw' hlc' ?_ ?_ hb'
          · intro l hl
            rcases List.mem_append.mp hl with h | h
            · exact h3 l h
            · simp only [List.mem_singleton] at h
              subst h
              exact hw'
          · intro l hl c2 hc2
            rcases List.mem_append.mp hl with h | h
            · exact h4 l h c2 hc2
            · simp only [List.mem_singleton] at h
              subst h
              exact hs' c2 hc2
        cases hn : li.iter.next with
        | none =>
          have hw' : wfLive D { li with current := none } := by
            refine ⟨hliw.1, ?_⟩
            intro c2 hc2
            exact absurd hc2 (by simp)
          have hs' : ∀ c2,
              ({ li with current := none } : LiveItem).current = some c2 →
              compare_points D current c2 = .lt := by
            intro c2 hc2
            exact absurd hc2 (by simp)
          by_cases htx : li.txn_id > init.2.1
          · have heq : blStep D current init li =
                (init.1 ++ [{ li with current := none }], li.txn_id, some c) := by
              rw [blStep_some D current init li c hcur, if_pos heqc, hn,
                if_pos htx]
            rw [heq]
            refine hstrict _ hw' hs' (li.txn_id, some c) ?_
            intro r hr
            simp only [Option.some.injEq] at hr
            subst hr
            exact ⟨heqc, (hliw.2 c hcur).1⟩
          · have heq : blStep D current init li =
                (init.1 ++ [{ li with current := none }], init.2) := by
              rw [blStep_some D current init li c hcur, if_pos heqc, hn,
                if_neg htx]
            rw [heq]
            exact hstrict _ hw' hs' init.2 h5
        | some p =>
          obtain ⟨row, it'⟩ := p
          have hn' : blockIterNextAux (li.iter.block.values.length + 1)
              li.iter = some (row, it') := hn
          obtain ⟨w1, w2, w3⟩ :=
            nextAux_order D _ li.iter row it' hliw.1 hn'
          have hw' : wfLive D { li with current := some row, iter := it' } := by
            refine ⟨w1, ?_⟩
            intro c2 hc2
            simp only [Option.some.injEq] at hc2
            subst hc2
            exact ⟨w2, fun g r it2 hgr => w3 g r it2 hgr⟩
          have hrowlt : compare_points D current row = .lt := by
            rw [← cp_eq_congr_left D c current row heqc]
            exact (hliw.2 c hcur).2 _ _ _ hn'
          have hs' : ∀ c2,
              ({ li with current := some row, iter := it' } : LiveItem).current
                = some c2 →
              compare_points D current c2 = .lt := by
            intro c2 hc2
            simp only [Option.some.injEq] at hc2
            subst hc2
            exact hrowlt
          by_cases htx : li.txn_id > init.2.1
          · have heq : blStep D current init li =
                (init.1 ++ [{ li with current := some row, iter := it' }],
                  li.txn_id, some c) := by
              rw [blStep_some D current init li c hcur, if_pos heqc, hn,
                if_pos htx]
            rw [heq]
            refine hstrict _ hw' hs' (li.txn_id, some c) ?_
            intro r hr
            simp only [Option.some.injEq] at hr
            subst hr
            exact ⟨heqc, (hliw.2 c hcur).1⟩
          · have heq : blStep D current init li =
                (init.1 ++ [{ li with current := some row, iter := it' }],
                  init.2) := by
              rw [blStep_some D current init li c hcur, if_pos heqc, hn,
                if_neg htx]
            rw [heq]
            exact hstrict _ hw' hs' init.2 h5
      · have heq : blStep D current init li = (init.1 ++ [li], init.2) := by
          rw [blStep_some D current init li c hcur, if_neg heqc]
        rw [heq]
        have hstrictc : compare_points D current c = .lt := by
          cases hcc : compare_points D current c with
          | lt => rfl
          | eq =>
            exfalso
            apply heqc
            rw [cp_swap D current c, hcc]
            rfl
          | gt => exact absurd hcc (hlic c hcur)
        refine ih _ hlw' hlc' ?_ ?_ h5
        · intro l hl
          rcases List.mem_append.mp hl with h | h
          · exact h3 l h
          · simp only [List.mem_singleton] at h
            subst h
            exact hliw
        · intro l hl c2 hc2
          rcases List.mem_append.mp hl with h | h
          · exact h4 l h c2 hc2
          · simp only [List.mem_singleton] at h
            subst h
            rw [hcur] at hc2
            simp only [Option.some.injEq] at hc2
            subst hc2
            exact hstrictc

theorem next_step (s : Scan) (hwf : wfScan s) :
    wfScan s.next.2 ∧ s.next.2.num_dims = s.num_dims ∧
    s.next.2.source = s.source ∧
    (∀ r, s.next.1 = some r →
      (boundQ s.num_dims r.values s.next.2.queue ∧
        boundL s.num_dims r.values s.next.2.live) ∧
      ∀ p, boundS s p → compare_points s.num_dims p r.values = .lt) ∧
    (s.next.1 = none → ∀ p, boundS s p →
      boundQ s.num_dims p s.next.2.queue ∧
      boundL s.num_dims p s.next.2.live) := by
  obtain ⟨hD1, hQ, hL⟩ := hwf
  cases hcf : (cfFold s.num_dims s.live
      ((popMin s.queue).map (fun p => p.1.start_point), true)).1 with
  | none =>
    have hnext : s.next = (none, s) := by
      rw [next_eq s, hcf]
    rw [hnext]
    refine ⟨⟨hD1, hQ, hL⟩, rfl, rfl, ?_, ?_⟩
    · intro r hr
      exact absurd hr (by simp)
    · intro _ p hp
      exact hp
  | some current =>
    obtain ⟨m1, m2, m3, m4, m5⟩ := cfFold_spec s.num_dims s.live
      ((popMin s.queue).map (fun p => p.1.start_point), true) current hcf
    have hqle : ∀ i ∈ s.queue,
        compare_points s.num_dims current i.start_point ≠ .gt := by
      cases hqq : popMin s.queue with
      | none =>
        rw [Scan.popMin_none hqq]
        simp
      | some pr =>
        obtain ⟨top, rest⟩ := pr
        have hseed : (((popMin s.queue).map (fun p => p.1.start_point),
            true) : Option (List Datum) × Bool).1 = some top.start_point := by
          rw [hqq]
          rfl
        have h1 := m2 top.start_point hseed
        have hmin := popMin_min s.num_dims s.queue top rest
          (fun i hi => (hQ i hi).1) hqq
        intro i hi
        exact cp_trans_le _ _ _ _ h1 (hmin i hi)
    have hcurmem : ∀ p, boundS s p →
        compare_points s.num_dims p current = .lt := by
      intro p hp
      rcases m1 with hm | ⟨li, hli, hc⟩
      · cases hqq : popMin s.queue with
        | none =>
          rw [hqq] at hm
          exact absurd hm (by simp)
        | some pr =>
          obtain ⟨top, rest⟩ := pr
          rw [hqq] at hm
          rw [Option.map_some'] at hm
          simp only [Option.some.injEq] at hm
          have htop : top ∈ s.queue :=
            (Scan.popMin_perm hqq).symm.mem_iff.mp
              (List.mem_cons_self top rest)
          rw [← hm]
          exact hp.1 top htop
      · exact hp.2 li hli current hc
    cases hflag : (cfFold s.num_dims s.live
        ((popMin s.queue).map (fun p => p.1.start_point), true)).2 with
    | true =>
      have hnext : s.next =
          ((blFold (s.check_queue current).num_dims current
              (s.check_queue current).live ([], 0, none)).2.2.map
            (fun row =>
              { txn_id := (blFold (s.check_queue current).num_dims current
                  (s.check_queue current).live ([], 0, none)).2.1,
                values := row }),
            { s.check_queue current with
                live := (blFold (s.check_queue current).num_dims current
                  (s.check_queue current).live ([], 0, none)).1.filter
                    (fun l => l.current.isSome) }) := by
        rw [next_eq s, hcf, hflag]
        rfl
      obtain ⟨g1, g2, g3, g4, g5, g6⟩ :=
        checkQueueAux_inv s.num_dims s.source current
          (Scan.queueWeight s.source s.queue) s rfl rfl (le_refl _)
          hQ hL hqle m3
      have c1 : (s.check_queue current).source = s.source := g1
      have c2 : (s.check_queue current).num_dims = s.num_dims := g2
      have c3 : ∀ i ∈ (s.check_queue current).queue,
          wfQItem s.source s.num_dims i := g3
      have c4 : ∀ li ∈ (s.check_queue current).live,
          wfLive s.num_dims li := g4
      have c5 : ∀ li ∈ (s.check_queue current).live, ∀ c,
          li.current = some c →
          compare_points s.num_dims current c ≠ .gt := g5
      have c6 : ∀ i ∈ (s.check_queue current).queue,
          compare_points s.num_dims current i.start_point = .lt := g6
      rw [c2] at hnext
      obtain ⟨b1, b2, b3⟩ := blFold_spec s.num_dims current
        (s.check_queue current).live ([], 0, none) c4 c5 (by simp) (by simp)
        (by simp)
      rw [hnext]
      refine ⟨⟨?_, ?_, ?_⟩, c2, c1, ?_, ?_⟩
      · show 1 ≤ (s.check_queue current).num_dims
        rw [c2]
        exact hD1
      · show ∀ i ∈ (s.check_queue current).queue,
          wfQItem (s.check_queue current).source
            (s.check_queue current).num_dims i
        rw [c1, c2]
        exact c3
      · show ∀ li ∈ (blFold s.num_dims current (s.check_queue current).live
            ([], 0, none)).1.filter (fun l => l.current.isSome),
          wfLive (s.check_queue current).num_dims li
        rw [c2]
        intro li hli
        exact b1 li (List.mem_filter.mp hli).1
      · intro r hr
        obtain ⟨row, hrow, hfr⟩ := Option.map_eq_some'.mp hr
        have hrv : r.values = row := by
          rw [← hfr]
        obtain ⟨hre, _⟩ := b3 row hrow
        refine ⟨⟨?_, ?_⟩, ?_⟩
        · intro i hi
          rw [hrv, cp_eq_congr_left s.num_dims row current i.start_point hre]
          exact c6 i hi
        · intro li hli c hc
          rw [hrv, cp_eq_congr_left s.num_dims row current c hre]
          exact b2 li (List.mem_filter.mp hli).1 c hc
        · intro p hp
          rw [hrv, cp_eq_congr_right s.num_dims row current p hre]
          exact hcurmem p hp
      · intro hr p hp
        refine ⟨?_, ?_⟩
        · intro i hi
          exact cp_trans_lt _ _ _ _ (hcurmem p hp) (c6 i hi)
        · intro li hli c hc
          exact cp_trans_lt _ _ _ _ (hcurmem p hp)
            (b2 li (List.mem_filter.mp hli).1 c hc)
    | false =>
      have hnext : s.next =
          ((blFold s.num_dims current s.live ([], 0, none)).2.2.map
            (fun row =>
              { txn_id := (blFold s.num_dims current s.live
                  ([], 0, none)).2.1,
                values := row }),
            { s with
                live := (blFold s.num_dims current s.live
                  ([], 0, none)).1.filter (fun l => l.current.isSome) }) := by
        rw [next_eq s, hcf, hflag]
        rfl
      have c6 : ∀ i ∈ s.queue,
          compare_points s.num_dims current i.start_point = .lt := by
        cases hqq : popMin s.queue with
        | none =>
          rw [Scan.popMin_none hqq]
          simp
        | some pr =>
          obtain ⟨top, rest⟩ := pr
          have hseed : (((popMin s.queue).map (fun p => p.1.start_point),
              true) : Option (List Datum) × Bool).1 = some top.start_point := by
            rw [hqq]
            rfl
          have hstrict := m5 hflag rfl top.start_point hseed
          have hmin := popMin_min s.num_dims s.queue top rest
            (fun i hi => (hQ i hi).1) hqq
          intro i hi
          exact cp_trans_lt_le _ _ _ _ hstrict (hmin i hi)
      obtain ⟨b1, b2, b3⟩ := blFold_spec s.num_dims current
        s.live ([], 0, none) hL m3 (by simp) (by simp) (by simp)
      rw [hnext]
      refine ⟨⟨hD1, hQ, ?_⟩, rfl, rfl, ?_, ?_⟩
      · intro li hli
        exact b1 li (List.mem_filter.mp hli).1
      · intro r hr
        obtain ⟨row, hrow, hfr⟩ := Option.map_eq_some'.mp hr
        have hrv : r.values = row := by
          rw [← hfr]
        obtain ⟨hre, _⟩ := b3 row hrow
        refine ⟨⟨?_, ?_⟩, ?_⟩
        · intro i hi
          rw [hrv, cp_eq_congr_left s.num_dims row current i.start_point hre]
          exact c6 i hi
        · intro li hli c hc
          rw [hrv, cp_eq_congr_left s.num_dims row current c hre]
          exact b2 li (List.mem_filter.mp hli).1 c hc
        · intro p hp
          rw [hrv, cp_eq_congr_right s.num_dims row current p hre]
          exact hcurmem p hp
      · intro hr p hp
        refine ⟨?_, ?_⟩
        · intro i hi
          exact cp_trans_lt _ _ _ _ (hcurmem p hp) (c6 i hi)
        · intro li hli c hc
          exact cp_trans_lt _ _ _ _ (hcurmem p hp)
            (b2 li (List.mem_filter.mp hli).1 c hc)

theorem runScan_bound :
    ∀ (n : Nat) (s : Scan) (po : Option (List Datum)),
      wfScan s → (∀ p, po = some p → boundS s p) →
      (∀ r ∈ (runScan n s).1, ∀ p, po = some p →
        compare_points s.num_dims p r.values = .lt) ∧
      List.Pairwise (fun r1 r2 =>
        compare_points s.num_dims r1.values r2.values = .lt)
        (runScan n s).1 := by
  intro n
  induction n with
  | zero =>
    intro s po _ _
    exact ⟨by simp [runScan], by simp [runScan]⟩
  | succ n ih =>
    intro s po hwf hbo
    obtain ⟨w1, w2, w3, w4, w5⟩ := next_step s hwf
    cases hr : s.next.1 with
    | none =>
      have heq : (runScan (n + 1) s).1 = (runScan n s.next.2).1 := by
        simp only [runScan, hr]
      have hb' : ∀ p, po = some p → boundS s.next.2 p := by
        intro p hp
        have hb := w5 hr p (hbo p hp)
        exact ⟨by rw [w2]; exact hb.1, by rw [w2]; exact hb.2⟩
      obtain ⟨ih1, ih2⟩ := ih s.next.2 po w1 hb'
      rw [w2] at ih1 ih2
      rw [heq]
      exact ⟨ih1, ih2⟩
    | some r =>
      have heq : (runScan (n + 1) s).1 = r :: (runScan n s.next.2).1 := by
        simp only [runScan, hr]
      obtain ⟨hbS, hlt⟩ := w4 r hr
      have hb' : ∀ p, (some r.values : Option (List Datum)) = some p →
          boundS s.next.2 p := by
        intro p hp
        simp only [Option.some.injEq] at hp
        subst hp
        exact ⟨by rw [w2]; exact hbS.1, by rw [w2]; exact hbS.2⟩
      obtain ⟨ih1, ih2⟩ := ih s.next.2 (some r.values) w1 hb'
      rw [w2] at ih1 ih2
      rw [heq]
      constructor
      · intro r2 hr2 p hp
        rcases List.mem_cons.mp hr2 with rfl | hmem
        · exact hlt p (hbo p hp)
        · exact cp_trans_lt _ _ _ _ (hlt p (hbo p hp))
            (ih1 r2 hmem r.values rfl)
      · rw [List.pairwise_cons]
        exact ⟨fun r2 hr2 => ih1 r2 hr2 r.values rfl, ih2⟩

/-- C6: for every well-formed scan (positive dimension count; every queued
item's start point has at most `D` entries and lower-bounds the
well-formed `D`-axis blocks it stands for; every live iterator is
well-formed with its pending row strictly below the iterator's future
rows), the rows returned across any number of `next()` calls have
strictly increasing coordinates in the `D`-dimensional lexicographic
order of `compare_points`: no later row's coordinate is less than or
equal to an earlier one's. -/
theorem claim_C6 (s : Scan) (n : Nat) (h : wfScan s) :
    List.Pairwise
      (fun r1 r2 => compare_points s.num_dims r1.values r2.values = .lt)
      (runScan n s).1 :=
  (runScan_bound n s none h (fun p hp => absurd hp (by simp))).2

theorem c6scan_wf : wfScan c6scan := by
  refine ⟨by decide, ?_, ?_⟩
  · have hq : c6scan.queue = [⟨[7, 0], QType.block c6block⟩] := rfl
    rw [hq]
    intro item hitem
    rcases List.mem_cons.mp hitem with rfl | hmem
    · refine ⟨by decide, ⟨by decide, by decide⟩, by decide, ?_⟩
      intro st hst
      rw [show c6block.get_start_point = some [7, 0] from rfl] at hst
      simp only [Option.some.injEq] at hst
      subst hst
      decide
    · exact absurd hmem (List.not_mem_nil item)
  · have hlv : c6scan.live = [] := rfl
    rw [hlv]
    intro li hli
    exact absurd hli (List.not_mem_nil li)

/-- Witness for C6: the scan of the repository's `one_local_block` test
(one block holding rows `(7,4) ↦ 99` and `(9,0) ↦ 101`) is well-formed
and its emissions over five `next()` calls are strictly increasing. -/
theorem claim_C6_witness :
    wfScan c6scan ∧
    List.Pairwise
      (fun r1 r2 =>
        compare_points c6scan.num_dims r1.values r2.values = .lt)
      (runScan 5 c6scan).1 :=
  ⟨c6scan_wf, claim_C6 c6scan 5 c6scan_wf⟩

end Matdb
